import Mathlib

/-!
Verification of the Ownership Conflict Validation Engine
(`src/forge_hooks/validators/ownership.py` and the `HookResult` structure of
`src/forge_hooks/common/hook_io.py`).

The development shallowly embeds the Python module:

* Python strings are Lean `String`s (operated on as `List Char` where the
  Python code works character-wise); `str.strip`, `str.startswith`,
  `str.split(",")`, `str.split("::", 1)` and `int(…)` are embedded by
  `pyStrip`, `pyStartswith`, `splitChar`, `splitFirst` and `pyIntOr0`
  below.
* The three regular expressions of `_parse_task_metadata` are embedded by a
  small backtracking matcher (`reMatches`) over a regex syntax tree `RE`;
  the result list is ordered by Python's backtracking priority (alternation
  left first, greedy quantifiers longest first, lazy quantifiers shortest
  first), so the head of the list is the match `re.search` / `re.finditer`
  returns.  Character classes are embedded at ASCII precision (`\d`, `\s`,
  `[A-Z]`), which is exact on the ASCII plan texts the module consumes.
* Python dicts are embedded as insertion-ordered association lists
  (`dictSet` for `d[k] = v`, `dictAppend` for the
  `if k not in d: d[k] = []; d[k].append(v)` idiom), matching the
  insertion-order iteration of `dict.items()`.  Python sets (used only in
  Rule 4) are embedded as first-appearance deduplicated lists; only their
  membership is relied on in theorems, since CPython's set iteration order
  is unspecified.
* The conflict messages are embedded as a structured `Conflict` record plus
  a rendering function `renderConflict` that mirrors the f-strings of the
  source verbatim.
-/

set_option autoImplicit false
set_option maxRecDepth 4000

/-! ## Python string primitives (ASCII precision) -/

/-- Python `\s` on ASCII text: space, tab, newline, carriage return,
vertical tab, form feed. -/
def pySpace (c : Char) : Bool :=
  c = ' ' || c = '\t' || c = '\n' || c = '\r' || c = '\x0b' || c = '\x0c'

/-- Python `\d` on ASCII text. -/
def pyDigit (c : Char) : Bool :=
  '0' ≤ c && c ≤ '9'

/-- Python `[A-Z]`. -/
def pyUpper (c : Char) : Bool :=
  'A' ≤ c && c ≤ 'Z'

/-- Character list of a string literal. -/
def strC (s : String) : List Char :=
  s.data

/-- Python `str.strip()` on a character list: drop whitespace from both ends. -/
def pyStrip (l : List Char) : List Char :=
  ((l.dropWhile pySpace).reverse.dropWhile pySpace).reverse

/-- Python `str.strip()` on a `String`. -/
def pyStripS (s : String) : String :=
  String.mk (pyStrip s.data)

/-- Python `s.startswith(pre)`. -/
def pyStartswith (s pre : String) : Bool :=
  pre.data.isPrefixOf s.data

/-- Python `s.split(sep, 1)` (first hit only): the text before the first
occurrence of `sep` and the text after it, or `none` when `sep` does not
occur (`sep in s` is false). -/
def splitFirst (sep : List Char) : List Char → Option (List Char × List Char)
  | [] => none
  | c :: rest =>
    if sep.isPrefixOf (c :: rest) then some ([], (c :: rest).drop sep.length)
    else
      match splitFirst sep rest with
      | some pr => some (c :: pr.1, pr.2)
      | none => none

/-- Python `s.split(",")` on a character list: split at every separator,
keeping empty pieces (`"".split(",") == [""]`). -/
def splitChar (sep : Char) : List Char → List (List Char)
  | [] => [[]]
  | c :: rest =>
    if c = sep then [] :: splitChar sep rest
    else
      match splitChar sep rest with
      | [] => [[c]]
      | h :: t => (c :: h) :: t

/-- Python `int(s)` wrapped in the parser's `try … except ValueError:
wave = 0`: a nonempty all-digit string is read as a decimal number, any
other value falls back to `0`.  (The only strings reaching `int` in the
source are `\d+` matches with `W` removed, on which this is exact.) -/
def pyIntOr0 (s : String) : Nat :=
  if s.data ≠ [] ∧ s.data.all pyDigit then
    s.data.foldl (fun n c => n * 10 + (c.toNat - '0'.toNat)) 0
  else 0

/-! ## Scope model (`parse_scope`, `scopes_overlap`) -/

/-- Embeds `parse_scope` of `ownership.py`: split `file::scope` notation on
the first `::` (`file_str.split("::", 1)` is `splitFirst`), strip both
halves; no `::` yields an unscoped name. -/
def parse_scope (file_str : String) : String × Option String :=
  match splitFirst (strC "::") file_str.data with
  | none => (pyStripS file_str, none)
  | some pr => (String.mk (pyStrip pr.1), some (String.mk (pyStrip pr.2)))

/-- Embeds `scopes_overlap` of `ownership.py`. -/
def scopes_overlap (scope1 scope2 : Option String) : Bool :=
  match scope1, scope2 with
  | none, _ => true
  | _, none => true
  | some s1, some s2 =>
    if s1 = s2 then true
    else if pyStartswith s1 (s2 ++ ".") || pyStartswith s2 (s1 ++ ".") then true
    else false

/-! ## A backtracking regex matcher

The three patterns of `_parse_task_metadata` use literals, the classes
`\s` `\d` `[A-Z]` and `.` (with `re.DOTALL`), the quantifiers `?` `+` `*`
`*?` (quantifiers only ever applied to single-character classes or the
one-character literal `#`), alternation, capture groups, lookahead `(?=…)`
and `\Z`.  `reMatches` enumerates every match of a pattern against a prefix
of the input in Python's backtracking-priority order, so its head is the
match Python's engine returns. -/

/-- Regex syntax tree for the patterns of `_parse_task_metadata`. -/
inductive RE where
  | lit : List Char → RE
  | cls : (Char → Bool) → RE
  | seq : RE → RE → RE
  | alt : RE → RE → RE
  | opt : RE → RE
  | plus : (Char → Bool) → RE
  | star : (Char → Bool) → RE
  | starL : (Char → Bool) → RE
  | look : RE → RE
  | eos : RE
  | grp : Nat → RE → RE

/-- Capture groups of a match, by group number. -/
def Caps : Type := List (Nat × List Char)

/-- Record group `n` (overwriting any previous capture of the group). -/
def setCap (caps : Caps) (n : Nat) (v : List Char) : Caps :=
  match caps with
  | [] => [(n, v)]
  | e :: rest => if e.1 = n then (n, v) :: rest else e :: setCap rest n v

/-- Text captured by group `n` (empty if the group did not capture). -/
def getCap (caps : Caps) (n : Nat) : List Char :=
  match caps with
  | [] => []
  | e :: rest => if e.1 = n then e.2 else getCap rest n

/-- Remainders after consuming `n, n-1, …, 1` characters: the branch order
of a greedy quantifier (longest first). -/
def dropsDesc (cs : List Char) (caps : Caps) : Nat → List (List Char × Caps)
  | 0 => []
  | n + 1 => (cs.drop (n + 1), caps) :: dropsDesc cs caps n

/-- Remainders after consuming `0, 1, …, n` characters: the branch order of
a lazy quantifier (shortest first). -/
def dropsAsc (cs : List Char) (caps : Caps) (n : Nat) : List (List Char × Caps) :=
  (List.range (n + 1)).map (fun i => (cs.drop i, caps))

/-- All matches of `re` against a prefix of `cs`, as `(remainder, captures)`
pairs in backtracking-priority order. -/
def reMatches : RE → List Char → Caps → List (List Char × Caps)
  | .lit ls, cs, caps => if ls.isPrefixOf cs then [(cs.drop ls.length, caps)] else []
  | .cls f, cs, caps =>
    match cs with
    | [] => []
    | c :: rest => if f c then [(rest, caps)] else []
  | .seq a b, cs, caps => (reMatches a cs caps).flatMap (fun pr => reMatches b pr.1 pr.2)
  | .alt a b, cs, caps => reMatches a cs caps ++ reMatches b cs caps
  | .opt a, cs, caps => reMatches a cs caps ++ [(cs, caps)]
  | .plus f, cs, caps => dropsDesc cs caps (cs.takeWhile f).length
  | .star f, cs, caps => dropsDesc cs caps (cs.takeWhile f).length ++ [(cs, caps)]
  | .starL f, cs, caps => dropsAsc cs caps (cs.takeWhile f).length
  | .look a, cs, caps => if (reMatches a cs caps).isEmpty then [] else [(cs, caps)]
  | .eos, cs, caps => if cs.isEmpty then [(cs, caps)] else []
  | .grp n a, cs, caps =>
    (reMatches a cs caps).map (fun pr => (pr.1, setCap pr.2 n (cs.take (cs.length - pr.1.length))))

/-- Leftmost match: try each start position left to right and take the
first (highest-priority) match there; returns
`(start offset, remainder, captures)`.  Embeds `re.search`. -/
def searchAux (re : RE) : List Char → Option (Nat × List Char × Caps)
  | [] =>
    match reMatches re [] [] with
    | pr :: _ => some (0, pr.1, pr.2)
    | [] => none
  | c :: rest =>
    match reMatches re (c :: rest) [] with
    | pr :: _ => some (0, pr.1, pr.2)
    | [] =>
      match searchAux re rest with
      | some r => some (r.1 + 1, r.2.1, r.2.2)
      | none => none

/-- Captures of the leftmost match, if any (`re.search` returning a match
object from which groups are read). -/
def reSearch (re : RE) (cs : List Char) : Option Caps :=
  (searchAux re cs).map (fun r => r.2.2)

/-- Embeds `re.finditer`: repeatedly take the leftmost match and continue
from its end (advancing one character past an empty match, as Python does).
Yields `(group 0, captures)` per match.  The fuel is only a termination
bound; `findIter` supplies enough for the whole input. -/
def findIterAux (re : RE) : Nat → List Char → List (List Char × Caps)
  | 0, _ => []
  | fuel + 1, cs =>
    match searchAux re cs with
    | none => []
    | some (off, rem, caps) =>
      let tail := cs.drop off
      let g0 := tail.take (tail.length - rem.length)
      (g0, caps) ::
        (if g0.isEmpty then
          match rem with
          | [] => []
          | _ :: r => findIterAux re fuel r
        else findIterAux re fuel rem)

/-- All matches of `re` in `cs`, leftmost and non-overlapping. -/
def findIter (re : RE) (cs : List Char) : List (List Char × Caps) :=
  findIterAux re (cs.length + 1) cs

/-! ## The three patterns of `_parse_task_metadata` -/

/-- `###[#]?\s+.*?\n\*\*Task ID:\*\* (task-\d+).*?\*\*Wave:\*\* (\d+|W\d+).*?(?=###[#]?|\Z)`
with `re.DOTALL` (so `.` is the universal class). -/
def taskRE : RE :=
  .seq (.lit (strC "###"))
    (.seq (.opt (.lit (strC "#")))
      (.seq (.plus pySpace)
        (.seq (.starL (fun _ => true))
          (.seq (.lit (strC "\n**Task ID:** "))
            (.seq (.grp 1 (.seq (.lit (strC "task-")) (.plus pyDigit)))
              (.seq (.starL (fun _ => true))
                (.seq (.lit (strC "**Wave:** "))
                  (.seq (.grp 2 (.alt (.plus pyDigit) (.seq (.lit (strC "W")) (.plus pyDigit))))
                    (.seq (.starL (fun _ => true))
                      (.look (.alt (.seq (.lit (strC "###")) (.opt (.lit (strC "#")))) .eos)))))))))))

/-- `\*\*File Ownership:\*\*(.*?)(?=\n\*\*[A-Z]|\Z)` with `re.DOTALL`. -/
def ownershipRE : RE :=
  .seq (.lit (strC "**File Ownership:**"))
    (.seq (.grp 1 (.starL (fun _ => true)))
      (.look (.alt (.seq (.lit (strC "\n**")) (.cls pyUpper)) .eos)))

/-- `- CREATE:\s*(.*?)(?=\n\s*-|\Z)` with `re.DOTALL`. -/
def createRE : RE :=
  .seq (.lit (strC "- CREATE:"))
    (.seq (.star pySpace)
      (.seq (.grp 1 (.starL (fun _ => true)))
        (.look (.alt (.seq (.lit (strC "\n")) (.seq (.star pySpace) (.lit (strC "-")))) .eos))))

/-- `- MODIFY:\s*(.*?)(?=\n\s*-|\Z)` with `re.DOTALL`. -/
def modifyRE : RE :=
  .seq (.lit (strC "- MODIFY:"))
    (.seq (.star pySpace)
      (.seq (.grp 1 (.starL (fun _ => true)))
        (.look (.alt (.seq (.lit (strC "\n")) (.seq (.star pySpace) (.lit (strC "-")))) .eos))))

/-- `- BOUNDARY:\s*(.*?)(?=\n\s*-|\n\*\*|\Z)` with `re.DOTALL`. -/
def boundaryRE : RE :=
  .seq (.lit (strC "- BOUNDARY:"))
    (.seq (.star pySpace)
      (.seq (.grp 1 (.starL (fun _ => true)))
        (.look (.alt (.seq (.lit (strC "\n")) (.seq (.star pySpace) (.lit (strC "-"))))
          (.alt (.lit (strC "\n**")) .eos)))))

/-! ## Plan parser (`_parse_task_metadata`) -/

/-- Parsed per-task metadata: wave number and the three declaration lists,
exactly the `{"wave": …, "create": …, "modify": …, "boundary": …}` dict the
parser stores per task. -/
structure TaskData where
  wave : Nat
  create : List String
  modify : List String
  boundary : List String
deriving DecidableEq

/-- Python `d[k] = v` on an insertion-ordered dict: update in place if the
key exists, else append. -/
def dictSet {K V : Type} [DecidableEq K] (m : List (K × V)) (k : K) (v : V) : List (K × V) :=
  match m with
  | [] => [(k, v)]
  | e :: rest => if e.1 = k then (k, v) :: rest else e :: dictSet rest k v

/-- Python `d[k]` / `k in d` on an insertion-ordered dict. -/
def lookupA {K V : Type} [DecidableEq K] (m : List (K × V)) (k : K) : Option V :=
  match m with
  | [] => none
  | e :: rest => if e.1 = k then some e.2 else lookupA rest k

/-- One `CREATE` / `MODIFY` / `BOUNDARY` entry of an ownership block:
`re.search` the line pattern in the ownership text, strip the captured
value, treat `""` and `"-"` as empty, else split on commas, strip each
item and drop empties — exactly the repeated
`[f.strip() for f in text.split(",") if f.strip()]` of the source. -/
def parseFileList (re : RE) (otext : List Char) : List String :=
  match reSearch re otext with
  | none => []
  | some caps =>
    let txt := pyStripS (String.mk (getCap caps 1))
    if txt = "" ∨ txt = "-" then []
    else ((splitChar ',' txt.data).map (fun l => String.mk (pyStrip l))).filter
      (fun f => decide (f ≠ ""))

/-- Per-match work of the `for match in matches` loop of
`_parse_task_metadata`: task id from group 1, wave from group 2 with every
`W` removed and `int(…)` falling back to `0` on failure (`pyIntOr0`), and the
three ownership lists from the `**File Ownership:**` block of the match's
group 0 (all three empty when the block is absent). -/
def taskRecordOfMatch (g0 : List Char) (caps : Caps) : String × TaskData :=
  let taskId := String.mk (getCap caps 1)
  let waveStr := String.mk ((getCap caps 2).filter (fun c => decide (c ≠ 'W')))
  let wave := pyIntOr0 waveStr
  match reSearch ownershipRE g0 with
  | none => (taskId, ⟨wave, [], [], []⟩)
  | some ocaps =>
    let otext := getCap ocaps 1
    (taskId,
      ⟨wave, parseFileList createRE otext, parseFileList modifyRE otext,
        parseFileList boundaryRE otext⟩)

/-- The task records of a plan text, one per `taskRE` match, in match
order (before registry insertion). -/
def taskRecords (content : String) : List (String × TaskData) :=
  (findIter taskRE content.data).map (fun pr => taskRecordOfMatch pr.1 pr.2)

/-- The `tasks[task_id] = {…}` loop of `_parse_task_metadata`: build the
task registry, later sections with the same id overwriting earlier ones. -/
def buildRegistry (ms : List (String × TaskData)) : List (String × TaskData) :=
  ms.foldl (fun m p => dictSet m p.1 p.2) []

/-- Embeds `_parse_task_metadata`: plan text to task registry. -/
def parseTaskMetadata (content : String) : List (String × TaskData) :=
  buildRegistry (taskRecords content)

/-! ## Rule engine (`_validate_ownership_rules`) -/

/-- One conflict record, structured by rule; `renderConflict` below renders
it to exactly the message string the Python engine appends. -/
inductive Conflict where
  | rule1 : String → List String → Conflict
  | rule23 : Nat → String → String → String → Option String → Option String → Conflict
  | rule4 : String → List String → Conflict
deriving DecidableEq

/-- The `if k not in d: d[k] = []` + `d[k].append(v)` idiom on an
insertion-ordered dict. -/
def dictAppend {K V : Type} [DecidableEq K] (m : List (K × List V)) (k : K) (v : V) :
    List (K × List V) :=
  match m with
  | [] => [(k, [v])]
  | e :: rest => if e.1 = k then (e.1, e.2 ++ [v]) :: rest else e :: dictAppend rest k v

/-- Rule 1's `create_map`: resource name (scope stripped) to the ids of the
tasks that CREATE it, built over all tasks in registry order. -/
def createMapOf (tasks : List (String × TaskData)) : List (String × List String) :=
  tasks.foldl (fun m p => p.2.create.foldl (fun m2 f => dictAppend m2 (parse_scope f).1 p.1) m) []

/-- Rule 1 violations: one conflict per resource CREATEd by more than one
registered claim, naming all claiming task ids. -/
def rule1ListOf (tasks : List (String × TaskData)) : List Conflict :=
  (createMapOf tasks).flatMap (fun e => if 1 < e.2.length then [Conflict.rule1 e.1 e.2] else [])

/-- The `waves` grouping: wave number to the ids of its tasks, keys in
first-appearance order (Python dict insertion order). -/
def wavesMapOf (tasks : List (String × TaskData)) : List (Nat × List String) :=
  tasks.foldl (fun m p => dictAppend m p.2.wave p.1) []

/-- The `tasks[task_id]["modify"]` lookup of the Rule 2/3 loop. -/
def modListOf (tasks : List (String × TaskData)) (tid : String) : List String :=
  match lookupA tasks tid with
  | some td => td.modify
  | none => []

/-- The per-wave `modify_map`: resource name to the `(task id, scope)`
pairs of the wave's MODIFY declarations on it. -/
def modifyMapOf (tasks : List (String × TaskData)) (tids : List String) :
    List (String × List (String × Option String)) :=
  tids.foldl (fun m tid =>
    (modListOf tasks tid).foldl
      (fun m2 fs => dictAppend m2 (parse_scope fs).1 (tid, (parse_scope fs).2)) m) []

/-- The `for i in range(len(modifiers)): for j in range(i+1, …)` loop:
every index pair `i < j` whose scopes overlap yields one conflict, in loop
order. -/
def pairConflicts (wave : Nat) (fn : String) :
    List (String × Option String) → List Conflict
  | [] => []
  | m1 :: rest =>
    rest.filterMap (fun m2 =>
      if scopes_overlap m1.2 m2.2 then
        some (Conflict.rule23 wave m1.1 m2.1 fn m1.2 m2.2)
      else none) ++ pairConflicts wave fn rest

/-- Rule 2/3 violations of one wave: skipped entirely for waves with fewer
than two tasks, else all overlapping pairs per resource with at least two
modifiers. -/
def rule23Block (tasks : List (String × TaskData)) (wave : Nat) (tids : List String) :
    List Conflict :=
  if tids.length < 2 then []
  else (modifyMapOf tasks tids).flatMap (fun e =>
    if e.2.length < 2 then [] else pairConflicts wave e.1 e.2)

/-- Rule 2/3 violations over all waves, in wave key order. -/
def rule23ListOf (tasks : List (String × TaskData)) : List Conflict :=
  (wavesMapOf tasks).flatMap (fun we => rule23Block tasks we.1 we.2)

/-- First-appearance deduplication with a seen-set accumulator. -/
def firstAppearancesAux {K : Type} [DecidableEq K] (seen : List K) : List K → List K
  | [] => []
  | k :: rest =>
    if k ∈ seen then firstAppearancesAux seen rest
    else k :: firstAppearancesAux (seen ++ [k]) rest

/-- First-appearance deduplication: the embedding of building a Python
set from a list, keeping insertion order. -/
def firstAppearances {K : Type} [DecidableEq K] (l : List K) : List K :=
  firstAppearancesAux [] l

/-- Rule 4 violations: one conflict per task whose MODIFY resource-name
set meets its BOUNDARY resource-name set, naming the intersection (the
Python sets are embedded as first-appearance lists; theorems use only
their membership). -/
def rule4ListOf (tasks : List (String × TaskData)) : List Conflict :=
  tasks.flatMap (fun p =>
    let mf := firstAppearances (p.2.modify.map (fun f => (parse_scope f).1))
    let bf := firstAppearances (p.2.boundary.map (fun f => (parse_scope f).1))
    let violations := mf.filter (fun r => decide (r ∈ bf))
    if violations.isEmpty then [] else [Conflict.rule4 p.1 violations])

/-- Embeds `_validate_ownership_rules`: the conflicts of the four rules in
rule order (the Python code appends to one list in exactly this order),
with the `len(conflicts) == 0` success flag. -/
def validateOwnershipRules (tasks : List (String × TaskData)) : Bool × List Conflict :=
  let conflicts := rule1ListOf tasks ++ rule23ListOf tasks ++ rule4ListOf tasks
  (conflicts.isEmpty, conflicts)

/-! ## Report builder (`FileOwnershipValidator.validate` and `HookResult`) -/

/-- The `HookResult` dataclass of `hook_io.py`. -/
structure HookResult where
  ok : Bool
  result : String
  message : Option String
  reason : Option String
deriving DecidableEq

/-- Python truthiness of a scope in the Rule 2/3 message:
`f"::{scope}" if scope else " (unscoped)"` (both `None` and `""` are
falsy). -/
def scopeLabel : Option String → String
  | none => " (unscoped)"
  | some s => if s = "" then " (unscoped)" else "::" ++ s

/-- Renders a conflict to the exact message string of the source. -/
def renderConflict : Conflict → String
  | .rule1 f tids =>
    "Rule 1 violation: File \x27" ++ f ++ "\x27 is CREATEd by multiple tasks: " ++
      String.intercalate ", " tids
  | .rule23 w t1 t2 fn s1 s2 =>
    "Rule 2/3 violation: Tasks " ++ t1 ++ " and " ++ t2 ++ " in Wave " ++ toString w ++
      " both MODIFY \x27" ++ fn ++ "\x27 with overlapping scopes: " ++
      scopeLabel s1 ++ " vs " ++ scopeLabel s2
  | .rule4 tid vs =>
    "Rule 4 violation: Task " ++ tid ++ " modifies files in its BOUNDARY: " ++
      String.intercalate ", " vs

/-- The distinct no-tasks pass message. -/
def noTasksMsg (newestFile : String) : String :=
  "No tasks found in plan file " ++ newestFile ++ " (nothing to validate)"

/-- The ordinary pass message with the task count. -/
def passMsg (newestFile : String) (n : Nat) : String :=
  "File ownership validation passed for " ++ newestFile ++ " (" ++ toString n ++ " tasks)"

/-- `OWNERSHIP_CONFLICT_ERROR` with the itemized conflict list filled in. -/
def conflictsErrorMsg (conflicts : List Conflict) : String :=
  "VALIDATION FAILED: File ownership conflicts detected.\n\nCONFLICTS:\n" ++
    String.intercalate "\n" (conflicts.map (fun c => "  - " ++ renderConflict c)) ++
    "\n\nACTION REQUIRED: Review the File Ownership Matrix and task definitions. " ++
    "Ensure each file is CREATEd by at most one task, parallel tasks have non-overlapping scopes, " ++
    "and no task modifies files in its BOUNDARY list."

/-- `NO_FILE_ERROR` with pattern and directory filled in. -/
def noFileErrorMsg (pattern directory : String) : String :=
  "VALIDATION FAILED: No plan file found matching " ++ pattern ++ ".\n\n" ++
    "ACTION REQUIRED: Create a plan file in the " ++ directory ++
    "/ directory before validation can run."

/-- Steps 3 to 5 of `FileOwnershipValidator.validate`, given the plan
text: parse, handle the empty registry, evaluate the rules and build the
pass or block result. -/
def validateContent (newestFile content : String) : HookResult :=
  let tasks := parseTaskMetadata content
  if tasks.isEmpty then ⟨true, "continue", some (noTasksMsg newestFile), none⟩
  else
    let res := validateOwnershipRules tasks
    if res.1 then ⟨true, "continue", some (passMsg newestFile tasks.length), none⟩
    else ⟨true, "block", none, some (conflictsErrorMsg res.2)⟩

/-- Embeds `FileOwnershipValidator.validate` in full.  The two external
collaborators are passed as values: `findResult` is what
`find_newest_file` returned and `readResult` what `Path.read_text`
produced (`Except.error` being a raised `OSError` / `UnicodeDecodeError`
with its message). -/
def validate (pattern directory : String) (findResult : Option String)
    (readResult : Except String String) : HookResult :=
  match findResult with
  | none => ⟨true, "block", none, some (noFileErrorMsg pattern directory)⟩
  | some newestFile =>
    match readResult with
    | .error e => ⟨true, "block", none, some ("Failed to read plan file " ++ newestFile ++ ": " ++ e)⟩
    | .ok content => validateContent newestFile content

/-! ## Specification-side vocabulary

The definitions below are read off the claims, not the engine: they name,
for a task registry, who claims what.  The theorems relate the engine's
output to them. -/

/-- The task ids of a registry, in registry order. -/
def taskIdsOf (tasks : List (String × TaskData)) : List String :=
  tasks.map (fun p => p.1)

/-- The resource names (scopes stripped) of a task's CREATE list. -/
def createsOf (td : TaskData) : List String :=
  td.create.map (fun f => (parse_scope f).1)

/-- The ids of the tasks whose CREATE list claims resource `r`, in
registry order. -/
def createClaimers (tasks : List (String × TaskData)) (r : String) : List String :=
  (tasks.filter (fun p => decide (r ∈ createsOf p.2))).map (fun p => p.1)

/-- The parsed `(resource, scope)` pairs of a task's MODIFY list. -/
def modDecls (td : TaskData) : List (String × Option String) :=
  td.modify.map parse_scope

/-- The resource names (scopes stripped) of a task's MODIFY list. -/
def modNamesOf (td : TaskData) : List String :=
  td.modify.map (fun f => (parse_scope f).1)

/-- The resource names (scopes stripped) of a task's BOUNDARY list. -/
def boundNamesOf (td : TaskData) : List String :=
  td.boundary.map (fun f => (parse_scope f).1)

/-- Task `tid` declares a MODIFY of resource `fn` at scope `s`. -/
def modifiesWith (tasks : List (String × TaskData)) (tid fn : String) (s : Option String) :
    Prop :=
  ∃ td, lookupA tasks tid = some td ∧ (fn, s) ∈ modDecls td

/-- The wave of a registered task. -/
def waveOfTask (tasks : List (String × TaskData)) (tid : String) : Option Nat :=
  (lookupA tasks tid).map TaskData.wave

/-- The ids of the tasks of wave `w`, in registry order. -/
def waveTasks (tasks : List (String × TaskData)) (w : Nat) : List String :=
  (tasks.filter (fun p => decide (p.2.wave = w))).map (fun p => p.1)

/-- The conflict is a Rule 1 record. -/
def isR1 : Conflict → Bool
  | .rule1 _ _ => true
  | _ => false

/-- The conflict is a Rule 2/3 record. -/
def isR23 : Conflict → Bool
  | .rule23 _ _ _ _ _ _ => true
  | _ => false

/-- The conflict is a Rule 4 record. -/
def isR4 : Conflict → Bool
  | .rule4 _ _ => true
  | _ => false

/-- The conflict is a Rule 1 record about resource `r`. -/
def isRule1For (r : String) : Conflict → Bool
  | .rule1 f _ => decide (f = r)
  | _ => false

/-- The conflict is a Rule 4 record about task `tid`. -/
def isRule4For (tid : String) : Conflict → Bool
  | .rule4 t _ => decide (t = tid)
  | _ => false

/-- The wave a Rule 2/3 record reports (`0` on other records). -/
def conflictWave : Conflict → Nat
  | .rule23 w _ _ _ _ _ => w
  | _ => 0

/-- The task a Rule 4 record reports (`""` on other records). -/
def conflictTask : Conflict → String
  | .rule4 t _ => t
  | _ => ""

/-- Occurrences of `a` in `l`. -/
def countEq {α : Type} [DecidableEq α] (a : α) (l : List α) : Nat :=
  (l.filter (fun x => decide (x = a))).length

/-- The overlap relation exactly as the specification words it: either
side unscoped, or identical scope strings, or one scope string equal to
the other plus a trailing `.`-separated suffix. -/
def specOverlap (a b : Option String) : Prop :=
  a = none ∨ b = none ∨
    ∃ s1 s2, a = some s1 ∧ b = some s2 ∧
      (s1 = s2 ∨ (∃ suf, s1 = s2 ++ "." ++ suf) ∨ ∃ suf, s2 = s1 ++ "." ++ suf)

/-- The claimed behaviour of the Rule 2/3 engine over a task registry:
a conflict is sound (same wave, at least two tasks in it, both MODIFY
declarations present, scopes overlapping), every overlapping same-wave
pair of declarations of two distinct tasks is reported, no record is
reported twice, no pair is reported again in reverse order, and absent
subscopes render as `(unscoped)`. -/
def Rule23Spec (tasks : List (String × TaskData)) : Prop :=
  (∀ w t1 t2 fn s1 s2,
      Conflict.rule23 w t1 t2 fn s1 s2 ∈ (validateOwnershipRules tasks).2 →
      waveOfTask tasks t1 = some w ∧ waveOfTask tasks t2 = some w ∧
        2 ≤ (waveTasks tasks w).length ∧
        modifiesWith tasks t1 fn s1 ∧ modifiesWith tasks t2 fn s2 ∧
        scopes_overlap s1 s2 = true) ∧
  (∀ w t1 t2 fn s1 s2, t1 ≠ t2 →
      waveOfTask tasks t1 = some w → waveOfTask tasks t2 = some w →
      modifiesWith tasks t1 fn s1 → modifiesWith tasks t2 fn s2 →
      scopes_overlap s1 s2 = true →
      Conflict.rule23 w t1 t2 fn s1 s2 ∈ (validateOwnershipRules tasks).2 ∨
        Conflict.rule23 w t2 t1 fn s2 s1 ∈ (validateOwnershipRules tasks).2) ∧
  (∀ w t1 t2 fn s1 s2,
      countEq (Conflict.rule23 w t1 t2 fn s1 s2) (validateOwnershipRules tasks).2 ≤ 1) ∧
  (∀ w t1 t2 fn s1 s2 s1' s2', t1 ≠ t2 →
      Conflict.rule23 w t1 t2 fn s1 s2 ∈ (validateOwnershipRules tasks).2 →
      Conflict.rule23 w t2 t1 fn s1' s2' ∉ (validateOwnershipRules tasks).2) ∧
  (∀ w t1 t2 fn, renderConflict (Conflict.rule23 w t1 t2 fn none none) =
      "Rule 2/3 violation: Tasks " ++ t1 ++ " and " ++ t2 ++ " in Wave " ++ toString w ++
        " both MODIFY \x27" ++ fn ++ "\x27 with overlapping scopes: " ++
        " (unscoped)" ++ " vs " ++ " (unscoped)")

/-! ## Proof vocabulary: flattened views of the engine's dict folds -/

/-- Keys of an association list, in order. -/
def keysOf {K V : Type} (m : List (K × V)) : List K :=
  m.map (fun p => p.1)

/-- The grouping fold shared by `create_map`, `waves` and `modify_map`. -/
def groupPairs {K V : Type} [DecidableEq K] (ps : List (K × V)) : List (K × List V) :=
  ps.foldl (fun m p => dictAppend m p.1 p.2) []

/-- The values a pair list carries at key `k`, in order. -/
def valsOf {K V : Type} [DecidableEq K] (ps : List (K × V)) (k : K) : List V :=
  (ps.filter (fun p => decide (p.1 = k))).map (fun p => p.2)

/-- Extends an optional dict entry by appended values (the effect of a
grouping fold on one key). -/
def extendVals {V : Type} (o : Option (List V)) (vs : List V) : Option (List V) :=
  match o with
  | some us => some (us ++ vs)
  | none => if vs.isEmpty then none else some vs

/-- The `(resource, claiming task)` pairs the Rule 1 fold inserts, in
insertion order. -/
def createPairs (tasks : List (String × TaskData)) : List (String × String) :=
  tasks.flatMap (fun p => p.2.create.map (fun f => ((parse_scope f).1, p.1)))

/-- The `(wave, task id)` pairs the wave-grouping fold inserts. -/
def wavePairs (tasks : List (String × TaskData)) : List (Nat × String) :=
  tasks.map (fun p => (p.2.wave, p.1))

/-- The `(resource, (task id, scope))` pairs the per-wave `modify_map`
fold inserts, in insertion order. -/
def modPairs (tasks : List (String × TaskData)) (tids : List String) :
    List (String × (String × Option String)) :=
  tids.flatMap (fun tid =>
    (modListOf tasks tid).map (fun fs => ((parse_scope fs).1, (tid, (parse_scope fs).2))))

/-- Task `tid`'s MODIFY declarations on resource `fn`, as
`(task id, scope)` pairs in declaration order. -/
def declsOn (tasks : List (String × TaskData)) (tid fn : String) :
    List (String × Option String) :=
  (((modListOf tasks tid).map parse_scope).filter (fun pr => decide (pr.1 = fn))).map
    (fun pr => (tid, pr.2))

/-- All MODIFY declarations on `fn` by the tasks `tids`, in wave order. -/
def modsFor (tasks : List (String × TaskData)) (tids : List String) (fn : String) :
    List (String × Option String) :=
  tids.flatMap (fun tid => declsOn tasks tid fn)

/-- The resource a conflict record is about (`""` on Rule 4 records,
whose subject is a task). -/
def conflictFile : Conflict → String
  | .rule1 f _ => f
  | .rule23 _ _ _ fn _ _ => fn
  | .rule4 _ _ => ""

/-- The violation list Rule 4 computes for one task: its MODIFY resource
names (as a set) that also occur among its BOUNDARY resource names. -/
def rule4Viol (td : TaskData) : List String :=
  (firstAppearances (modNamesOf td)).filter
    (fun r => decide (r ∈ firstAppearances (boundNamesOf td)))

/-- First-some choice on options (used to state what registry insertion
keeps when a task id is re-used). -/
def orO {α : Type} : Option α → Option α → Option α
  | some a, _ => some a
  | none, b => b

/-! ## Concrete task registries and plan texts used as witnesses -/

/-- The boundary-violating task record of `exTasksBoundary`. -/
def exTd1 : TaskData :=
  ⟨1, [], [ "api.py::Handler", "util.py"], [ "util.py", "core.py"]⟩

/-- Two tasks CREATE `shared.py`; a third creates its own file. -/
def exTasksCreate : List (String × TaskData) :=
  [( "task-1", ⟨1, [ "shared.py", "one.py"], [], []⟩),
   ( "task-2", ⟨2, [ "shared.py"], [], []⟩),
   ( "task-3", ⟨2, [ "three.py"], [], []⟩)]

/-- Same-wave tasks with nested, sibling and unscoped MODIFY claims. -/
def exTasksModify : List (String × TaskData) :=
  [( "task-1", ⟨1, [], [ "foo.py::ClassA", "bar.py::ClassB.methodX"], []⟩),
   ( "task-2", ⟨1, [], [ "foo.py::ClassA.methodX", "bar.py::ClassB.methodY"], []⟩),
   ( "task-3", ⟨2, [], [ "foo.py"], []⟩)]

/-- A task that MODIFYs a resource it also declares as BOUNDARY. -/
def exTasksBoundary : List (String × TaskData) :=
  [( "task-1", ⟨1, [], [ "api.py::Handler", "util.py"], [ "util.py", "core.py"]⟩),
   ( "task-2", ⟨1, [], [ "core.py"], []⟩)]

/-- Wave 2 tasks are registered before wave 1 tasks, and both waves carry
a same-wave conflict: the engine reports wave 2's conflict first. -/
def exTasksWaveOrder : List (String × TaskData) :=
  [( "task-1", ⟨2, [], [ "f.py"], []⟩),
   ( "task-2", ⟨2, [], [ "f.py"], []⟩),
   ( "task-3", ⟨1, [], [ "g.py"], []⟩),
   ( "task-4", ⟨1, [], [ "g.py"], []⟩)]

/-- A plan whose only task section carries the unparseable wave field
`unknown`. -/
def planBadWave : String :=
  "### S\n**Task ID:** task-1\n**Wave:** unknown\n**File Ownership:**\n- CREATE: foo.py\n"

/-- The same plan with the parseable wave field `7`. -/
def planGoodWave : String :=
  "### S\n**Task ID:** task-1\n**Wave:** 7\n**File Ownership:**\n- CREATE: foo.py\n"

/-- Two task sections that share the id `task-1`. -/
def planDupIds : String :=
  "### A\n**Task ID:** task-1\n**Wave:** 1\n**File Ownership:**\n- CREATE: a.py\n\n### B\n**Task ID:** task-1\n**Wave:** 2\n**File Ownership:**\n- CREATE: b.py\n"

/-- A two-task plan exercising the full pipeline. -/
def planTwoTasks : String :=
  "### A\n**Task ID:** task-1\n**Wave:** 1\n**File Ownership:**\n- CREATE: foo.py\n- MODIFY: bar.py::ClassA\n- BOUNDARY: qux.py\n\n### B\n**Task ID:** task-2\n**Wave:** W1\n**File Ownership:**\n- CREATE: foo.py\n- MODIFY: bar.py::ClassA.m\n- BOUNDARY: -\n"

/-! ## Lemmas: association-list dictionaries and grouping folds -/

section KeyLemmas

variable {K W : Type}

theorem keysOf_nil : keysOf ([] : List (K × W)) = [] := rfl

theorem keysOf_cons (e : K × W) (m : List (K × W)) : keysOf (e :: m) = e.1 :: keysOf m := rfl

theorem keysOf_append (m1 m2 : List (K × W)) : keysOf (m1 ++ m2) = keysOf m1 ++ keysOf m2 := by
  simp [keysOf]

end KeyLemmas

section DictLemmas

variable {K V W : Type} [DecidableEq K]

theorem lookupA_dictAppend (m : List (K × List V)) (k k' : K) (v : V) :
    lookupA (dictAppend m k v) k' =
      if k' = k then some (((lookupA m k).getD []) ++ [v]) else lookupA m k' := by
  induction m with
  | nil =>
    by_cases h : k' = k
    · subst h; simp [dictAppend, lookupA]
    · rw [if_neg h]
      simp [dictAppend, lookupA, show ¬ k = k' from fun hh => h hh.symm]
  | cons e rest ih =>
    obtain ⟨ek, ev⟩ := e
    by_cases he : ek = k
    · subst he
      by_cases h : k' = ek
      · subst h; simp [dictAppend, lookupA]
      · rw [if_neg h]
        simp [dictAppend, lookupA, show ¬ ek = k' from fun hh => h hh.symm]
    · by_cases h2 : ek = k'
      · subst h2
        rw [if_neg (show ¬ ek = k from he)]
        simp [dictAppend, lookupA, he]
      · simp [dictAppend, lookupA, he, h2, ih]

theorem keysOf_dictAppend (m : List (K × List V)) (k : K) (v : V) :
    keysOf (dictAppend m k v) = if k ∈ keysOf m then keysOf m else keysOf m ++ [k] := by
  induction m with
  | nil => simp [dictAppend, keysOf]
  | cons e rest ih =>
    by_cases he : e.1 = k
    · subst he
      simp [dictAppend, keysOf_cons]
    · simp only [dictAppend, if_neg he, keysOf_cons]
      rw [ih]
      by_cases hm : k ∈ keysOf rest
      · rw [if_pos hm, if_pos (List.mem_cons_of_mem _ hm)]
      · rw [if_neg hm,
          if_neg (show k ∉ e.1 :: keysOf rest from by
            simp [hm, show ¬ k = e.1 from fun hh => he hh.symm])]
        simp

theorem lookupA_eq_none (m : List (K × W)) (k : K) :
    lookupA m k = none ↔ k ∉ keysOf m := by
  induction m with
  | nil => simp [lookupA, keysOf]
  | cons e rest ih =>
    by_cases he : e.1 = k
    · subst he
      simp [lookupA, keysOf_cons]
    · simp [lookupA, keysOf_cons, he, ih, show ¬ k = e.1 from fun hh => he hh.symm]

theorem mem_iff_lookupA (m : List (K × W)) (k : K) (vs : W) (h : (keysOf m).Nodup) :
    (k, vs) ∈ m ↔ lookupA m k = some vs := by
  induction m with
  | nil => simp [lookupA]
  | cons e rest ih =>
    rw [keysOf_cons, List.nodup_cons] at h
    by_cases he : e.1 = k
    · obtain ⟨ek, ev⟩ := e
      cases he
      have hnr : (ek, vs) ∉ rest := fun hm =>
        h.1 (List.mem_map.mpr ⟨(ek, vs), hm, rfl⟩)
      simp only [lookupA, if_pos rfl, List.mem_cons]
      constructor
      · rintro (hm | hm)
        · cases hm; rfl
        · exact absurd hm hnr
      · intro hl
        cases hl
        exact Or.inl rfl
    · have hne : (k, vs) ≠ e := fun hh => he (by rw [← hh])
      simp [lookupA, he, ih h.2, List.mem_cons, hne]

theorem valsOf_nil (k : K) : valsOf ([] : List (K × V)) k = [] := rfl

theorem valsOf_cons (p : K × V) (ps : List (K × V)) (k : K) :
    valsOf (p :: ps) k = if p.1 = k then p.2 :: valsOf ps k else valsOf ps k := by
  by_cases h : p.1 = k <;> simp [valsOf, List.filter_cons, h]

theorem valsOf_append (ps qs : List (K × V)) (k : K) :
    valsOf (ps ++ qs) k = valsOf ps k ++ valsOf qs k := by
  simp [valsOf, List.filter_append]

theorem extendVals_nil {o : Option (List V)} : extendVals o ([] : List V) = o := by
  cases o <;> simp [extendVals]

theorem foldl_dictAppend_lookup (ps : List (K × V)) (m : List (K × List V)) (k : K) :
    lookupA (ps.foldl (fun m2 p => dictAppend m2 p.1 p.2) m) k =
      extendVals (lookupA m k) (valsOf ps k) := by
  induction ps generalizing m with
  | nil => simp [extendVals_nil, valsOf]
  | cons p ps ih =>
    rw [List.foldl_cons, ih, lookupA_dictAppend, valsOf_cons]
    by_cases h : p.1 = k
    · subst h
      simp only [if_pos rfl]
      cases hm : lookupA m p.1 with
      | none => simp [extendVals]
      | some us => simp [extendVals, List.append_assoc]
    · rw [if_neg (show ¬ k = p.1 from fun hh => h hh.symm), if_neg h]

theorem groupPairs_lookup_of_nil {ps : List (K × V)} {k : K} (h : valsOf ps k = []) :
    lookupA (groupPairs ps) k = none := by
  rw [groupPairs, foldl_dictAppend_lookup]
  show extendVals none (valsOf ps k) = none
  rw [h]
  rfl

theorem groupPairs_lookup_of_ne_nil {ps : List (K × V)} {k : K} (h : valsOf ps k ≠ []) :
    lookupA (groupPairs ps) k = some (valsOf ps k) := by
  rw [groupPairs, foldl_dictAppend_lookup]
  show extendVals none (valsOf ps k) = some (valsOf ps k)
  cases hv : valsOf ps k with
  | nil => exact absurd hv h
  | cons a l => rfl

theorem keysOf_foldl_dictAppend (ps : List (K × V)) (m : List (K × List V)) :
    keysOf (ps.foldl (fun m2 p => dictAppend m2 p.1 p.2) m) =
      keysOf m ++ firstAppearancesAux (keysOf m) (ps.map (fun p => p.1)) := by
  induction ps generalizing m with
  | nil => simp [firstAppearancesAux]
  | cons p ps ih =>
    rw [List.foldl_cons, ih, keysOf_dictAppend, List.map_cons]
    by_cases h : p.1 ∈ keysOf m
    · simp [firstAppearancesAux, h]
    · simp [firstAppearancesAux, h, List.append_assoc]

theorem keysOf_groupPairs (ps : List (K × V)) :
    keysOf (groupPairs ps) = firstAppearances (ps.map (fun p => p.1)) := by
  rw [groupPairs, keysOf_foldl_dictAppend, firstAppearances]
  rfl

theorem mem_firstAppearancesAux (seen : List K) (l : List K) (x : K) :
    x ∈ firstAppearancesAux seen l ↔ x ∈ l ∧ x ∉ seen := by
  induction l generalizing seen with
  | nil => simp [firstAppearancesAux]
  | cons k rest ih =>
    by_cases hk : k ∈ seen
    · by_cases hx : x = k
      · subst hx
        simp [firstAppearancesAux, hk, ih]
      · simp [firstAppearancesAux, hk, ih, hx]
    · by_cases hx : x = k
      · subst hx
        simp [firstAppearancesAux, hk]
      · simp [firstAppearancesAux, hk, ih, hx]

theorem nodup_firstAppearancesAux (seen : List K) (l : List K) :
    (firstAppearancesAux seen l).Nodup := by
  induction l generalizing seen with
  | nil => simp [firstAppearancesAux]
  | cons k rest ih =>
    by_cases hk : k ∈ seen
    · simpa [firstAppearancesAux, hk] using ih seen
    · simp only [firstAppearancesAux, if_neg hk, List.nodup_cons]
      refine ⟨fun hm => ?_, ih (seen ++ [k])⟩
      exact ((mem_firstAppearancesAux _ _ _).mp hm).2 (by simp)

theorem mem_firstAppearances (l : List K) (x : K) :
    x ∈ firstAppearances l ↔ x ∈ l := by
  simp [firstAppearances, mem_firstAppearancesAux]

theorem nodup_firstAppearances (l : List K) : (firstAppearances l).Nodup :=
  nodup_firstAppearancesAux [] l

theorem nodup_keysOf_groupPairs (ps : List (K × V)) : (keysOf (groupPairs ps)).Nodup := by
  rw [keysOf_groupPairs]
  exact nodup_firstAppearances _

end DictLemmas

/-! ## Lemmas: the engine's folds as grouped pair lists -/

theorem foldl_flatMap_eq {α β γ : Type} (g : α → List β) (f : γ → β → γ) (l : List α)
    (init : γ) :
    (l.flatMap g).foldl f init = l.foldl (fun acc x => (g x).foldl f acc) init := by
  induction l generalizing init with
  | nil => simp
  | cons x xs ih => simp [List.flatMap_cons, List.foldl_append, ih]

theorem createMapOf_eq (tasks : List (String × TaskData)) :
    createMapOf tasks = groupPairs (createPairs tasks) := by
  rw [groupPairs, createPairs, foldl_flatMap_eq]
  simp only [List.foldl_map]
  rfl

theorem wavesMapOf_eq (tasks : List (String × TaskData)) :
    wavesMapOf tasks = groupPairs (wavePairs tasks) := by
  rw [groupPairs, wavePairs]
  simp only [List.foldl_map]
  rfl

theorem modifyMapOf_eq (tasks : List (String × TaskData)) (tids : List String) :
    modifyMapOf tasks tids = groupPairs (modPairs tasks tids) := by
  rw [groupPairs, modPairs, foldl_flatMap_eq]
  simp only [List.foldl_map]
  rfl

theorem valsOf_wavePairs (tasks : List (String × TaskData)) (w : Nat) :
    valsOf (wavePairs tasks) w = waveTasks tasks w := by
  unfold valsOf wavePairs waveTasks
  rw [List.filter_map, List.map_map]
  rfl

theorem valsOf_modPairs (tasks : List (String × TaskData)) (tids : List String) (fn : String) :
    valsOf (modPairs tasks tids) fn = modsFor tasks tids fn := by
  induction tids with
  | nil => rfl
  | cons tid rest ih =>
    rw [modPairs, List.flatMap_cons, valsOf_append, modsFor, List.flatMap_cons]
    rw [show (rest.flatMap fun tid =>
        (modListOf tasks tid).map fun fs => ((parse_scope fs).1, tid, (parse_scope fs).2)) =
      modPairs tasks rest from rfl, ih]
    rw [show valsOf ((modListOf tasks tid).map fun fs =>
        ((parse_scope fs).1, tid, (parse_scope fs).2)) fn = declsOn tasks tid fn from ?_]
    · rfl
    · unfold valsOf declsOn
      rw [List.filter_map, List.map_map, List.filter_map, List.map_map]
      rfl

theorem valsOf_map_const_snd {t : String} (ns : List String) (r : String) (h : ns.Nodup) :
    valsOf (ns.map (fun n => (n, t))) r = if r ∈ ns then [t] else [] := by
  induction ns with
  | nil => simp [valsOf]
  | cons n rest ih =>
    rw [List.nodup_cons] at h
    rw [List.map_cons, valsOf_cons]
    by_cases hn : n = r
    · subst hn
      rw [if_pos rfl, if_pos (List.mem_cons_self _ _), ih h.2, if_neg h.1]
    · rw [if_neg hn, ih h.2]
      by_cases hm : r ∈ rest
      · rw [if_pos hm, if_pos (List.mem_cons_of_mem _ hm)]
      · rw [if_neg hm, if_neg (by simp [hm, show ¬ r = n from fun hh => hn hh.symm])]

theorem createClaimers_cons (p : String × TaskData) (rest : List (String × TaskData))
    (r : String) :
    createClaimers (p :: rest) r =
      if r ∈ createsOf p.2 then p.1 :: createClaimers rest r else createClaimers rest r := by
  by_cases h : r ∈ createsOf p.2 <;> simp [createClaimers, List.filter_cons, h]

theorem valsOf_createPairs (tasks : List (String × TaskData)) (r : String)
    (h : ∀ p ∈ tasks, (createsOf p.2).Nodup) :
    valsOf (createPairs tasks) r = createClaimers tasks r := by
  induction tasks with
  | nil => rfl
  | cons p rest ih =>
    rw [createPairs, List.flatMap_cons, valsOf_append,
      show (rest.flatMap fun q => q.2.create.map fun f => ((parse_scope f).1, q.1)) =
        createPairs rest from rfl,
      ih (fun q hq => h q (List.mem_cons_of_mem _ hq)), createClaimers_cons]
    have hmap : p.2.create.map (fun f => ((parse_scope f).1, p.1)) =
        (createsOf p.2).map (fun n => (n, p.1)) := by
      unfold createsOf
      rw [List.map_map]
      rfl
    rw [hmap, valsOf_map_const_snd _ _ (h p (List.mem_cons_self _ _))]
    by_cases hm : r ∈ createsOf p.2
    · simp [hm]
    · simp [hm]

/-! ## Lemmas: registry membership, waves and declarations -/

theorem mem_waveTasks {tasks : List (String × TaskData)} {w : Nat} {t : String} :
    t ∈ waveTasks tasks w ↔ ∃ td, (t, td) ∈ tasks ∧ td.wave = w := by
  simp only [waveTasks, List.mem_map, List.mem_filter, decide_eq_true_eq]
  constructor
  · rintro ⟨⟨pt, ptd⟩, ⟨hmem, hw⟩, rfl⟩
    exact ⟨ptd, hmem, hw⟩
  · rintro ⟨td, hmem, hw⟩
    exact ⟨(t, td), ⟨hmem, hw⟩, rfl⟩

theorem nodup_waveTasks {tasks : List (String × TaskData)} (h : (keysOf tasks).Nodup)
    (w : Nat) : (waveTasks tasks w).Nodup := by
  have hs : (waveTasks tasks w).Sublist (tasks.map (fun p => p.1)) :=
    List.Sublist.map _ (List.filter_sublist _)
  exact List.Nodup.sublist hs h

theorem mem_waveTasks_iff {tasks : List (String × TaskData)} (h : (keysOf tasks).Nodup)
    {w : Nat} {t : String} :
    t ∈ waveTasks tasks w ↔ waveOfTask tasks t = some w := by
  rw [mem_waveTasks]
  unfold waveOfTask
  constructor
  · rintro ⟨td, hmem, hw⟩
    rw [(mem_iff_lookupA tasks t td h).mp hmem]
    simpa using hw
  · intro hl
    cases hlk : lookupA tasks t with
    | none => rw [hlk] at hl; simp at hl
    | some td =>
      rw [hlk] at hl
      simp at hl
      exact ⟨td, (mem_iff_lookupA tasks t td h).mpr hlk, hl⟩

theorem mem_declsOn_fst {tasks : List (String × TaskData)} {tid fn : String}
    {x : String × Option String} (hx : x ∈ declsOn tasks tid fn) : x.1 = tid := by
  rcases List.mem_map.mp hx with ⟨pr, _, rfl⟩
  rfl

theorem mem_declsOn_iff {tasks : List (String × TaskData)} {tid fn : String}
    {s : Option String} :
    (tid, s) ∈ declsOn tasks tid fn ↔
      ∃ pr, pr ∈ (modListOf tasks tid).map parse_scope ∧ pr = (fn, s) := by
  unfold declsOn
  constructor
  · intro hm
    rcases List.mem_map.mp hm with ⟨pr, hpr, heq⟩
    rcases List.mem_filter.mp hpr with ⟨hpr2, hfn⟩
    refine ⟨pr, hpr2, ?_⟩
    have h1 : pr.1 = fn := by simpa using hfn
    have h2 : pr.2 = s := congrArg Prod.snd heq
    exact Prod.ext h1 h2
  · rintro ⟨pr, hpr, rfl⟩
    exact List.mem_map.mpr ⟨(fn, s), List.mem_filter.mpr ⟨hpr, by simp⟩, rfl⟩

theorem mem_declsOn_iff_modifiesWith {tasks : List (String × TaskData)} {tid fn : String}
    {s : Option String} :
    (tid, s) ∈ declsOn tasks tid fn ↔ modifiesWith tasks tid fn s := by
  rw [mem_declsOn_iff]
  unfold modifiesWith modListOf
  cases hlk : lookupA tasks tid with
  | none =>
    simp
  | some td =>
    constructor
    · rintro ⟨pr, hpr, rfl⟩
      exact ⟨td, rfl, hpr⟩
    · rintro ⟨td2, htd2, hm⟩
      rw [Option.some_inj] at htd2
      subst htd2
      exact ⟨(fn, s), hm, rfl⟩

theorem mem_modsFor {tasks : List (String × TaskData)} {tids : List String} {fn : String}
    {x : String × Option String} :
    x ∈ modsFor tasks tids fn ↔ x.1 ∈ tids ∧ modifiesWith tasks x.1 fn x.2 := by
  unfold modsFor
  rw [List.mem_flatMap]
  constructor
  · rintro ⟨tid, htid, hx⟩
    have h1 := mem_declsOn_fst hx
    subst h1
    obtain ⟨x1, x2⟩ := x
    exact ⟨htid, mem_declsOn_iff_modifiesWith.mp hx⟩
  · rintro ⟨htid, hmod⟩
    obtain ⟨x1, x2⟩ := x
    exact ⟨x1, htid, mem_declsOn_iff_modifiesWith.mpr hmod⟩

/-! ## Lemmas: element order in lists and flattenings -/

theorem two_mem_two_le_length {α : Type} {l : List α} {a b : α} (ha : a ∈ l) (hb : b ∈ l)
    (hab : a ≠ b) : 2 ≤ l.length := by
  cases l with
  | nil => simp at ha
  | cons x t =>
    cases t with
    | nil =>
      simp only [List.mem_singleton] at ha hb
      exact absurd (ha.trans hb.symm) hab
    | cons y u =>
      simp only [List.length_cons]
      omega

theorem mem_split_pair {α : Type} {l : List α} {a b : α} (ha : a ∈ l) (hb : b ∈ l)
    (hab : a ≠ b) :
    (∃ u v, l = u ++ a :: v ∧ b ∈ v) ∨ (∃ u v, l = u ++ b :: v ∧ a ∈ v) := by
  induction l with
  | nil => simp at ha
  | cons x rest ih =>
    by_cases hax : a = x
    · subst hax
      have hbr : b ∈ rest := by
        rcases List.mem_cons.mp hb with h | h
        · exact absurd h.symm hab
        · exact h
      exact Or.inl ⟨[], rest, rfl, hbr⟩
    · by_cases hbx : b = x
      · subst hbx
        have har : a ∈ rest := by
          rcases List.mem_cons.mp ha with h | h
          · exact absurd h hax
          · exact h
        exact Or.inr ⟨[], rest, rfl, har⟩
      · have ha2 : a ∈ rest := by
          rcases List.mem_cons.mp ha with h | h
          · exact absurd h hax
          · exact h
        have hb2 : b ∈ rest := by
          rcases List.mem_cons.mp hb with h | h
          · exact absurd h hbx
          · exact h
        rcases ih ha2 hb2 with ⟨u, v, heq, hm⟩ | ⟨u, v, heq, hm⟩
        · exact Or.inl ⟨x :: u, v, by rw [heq, List.cons_append], hm⟩
        · exact Or.inr ⟨x :: u, v, by rw [heq, List.cons_append], hm⟩

theorem pair_sublist_flatMap {A B : Type} (g : A → List B) {x y : B} {ti tj : A}
    {u v : List A} (hx : x ∈ g ti) (hy : y ∈ g tj) (hj : tj ∈ v) :
    [x, y].Sublist ((u ++ ti :: v).flatMap g) := by
  rw [List.flatMap_append, List.flatMap_cons]
  have h1 : [x].Sublist (g ti) := List.singleton_sublist.mpr hx
  have h2 : [y].Sublist (v.flatMap g) :=
    List.singleton_sublist.mpr (List.mem_flatMap.mpr ⟨tj, hj, hy⟩)
  have h3 : ([x] ++ [y]).Sublist (g ti ++ v.flatMap g) := List.Sublist.append h1 h2
  have h4 : (([] : List B) ++ ([x] ++ [y])).Sublist
      (u.flatMap g ++ (g ti ++ v.flatMap g)) :=
    List.Sublist.append (List.nil_sublist _) h3
  simpa [List.append_assoc] using h4

theorem pair_sublist_append_cases {α : Type} {A L : List α} {x y : α}
    (h : [x, y].Sublist (A ++ L)) : x ∈ A ∨ [x, y].Sublist L := by
  induction A with
  | nil => exact Or.inr (by simpa using h)
  | cons a A2 ih =>
    rw [List.cons_append] at h
    cases h with
    | cons _ h2 =>
      rcases ih h2 with h3 | h3
      · exact Or.inl (List.mem_cons_of_mem _ h3)
      · exact Or.inr h3
    | cons₂ _ h2 => exact Or.inl (List.mem_cons_self _ _)

theorem flatMap_fst_both_orders {A C : Type} (tids : List A) (g : A → List (A × C))
    (hg : ∀ t x, x ∈ g t → x.1 = t) {x y x' y' : A × C} (hx : x'.1 = x.1)
    (hy : y'.1 = y.1) :
    tids.Nodup → [x, y].Sublist (tids.flatMap g) → [y', x'].Sublist (tids.flatMap g) →
      x.1 = y.1 := by
  induction tids with
  | nil =>
    intro _ h1 _
    rw [List.flatMap_nil] at h1
    have := List.sublist_nil.mp h1
    simp at this
  | cons t rest ih =>
    intro hn h1 h2
    rw [List.flatMap_cons] at h1 h2
    rw [List.nodup_cons] at hn
    by_cases hxt : x.1 = t
    · by_cases hyt : y.1 = t
      · exact hxt.trans hyt.symm
      · rcases pair_sublist_append_cases h2 with hmem | hsub
        · have : y'.1 = t := hg t y' hmem
          rw [hy] at this
          exact absurd this hyt
        · have hx'mem : x' ∈ rest.flatMap g := hsub.subset (by simp)
          rcases List.mem_flatMap.mp hx'mem with ⟨tj, hj, hxg⟩
          have h5 : x'.1 = tj := hg tj x' hxg
          rw [hx, hxt] at h5
          exact absurd (h5 ▸ hj) hn.1
    · by_cases hyt : y.1 = t
      · rcases pair_sublist_append_cases h1 with hmem | hsub
        · exact absurd (hg t x hmem) hxt
        · have hymem : y ∈ rest.flatMap g := hsub.subset (by simp)
          rcases List.mem_flatMap.mp hymem with ⟨tj, hj, hyg⟩
          have h5 : y.1 = tj := hg tj y hyg
          rw [hyt] at h5
          exact absurd (h5 ▸ hj) hn.1
      · rcases pair_sublist_append_cases h1 with hmem | hsub1
        · exact absurd (hg t x hmem) hxt
        rcases pair_sublist_append_cases h2 with hmem | hsub2
        · have : y'.1 = t := hg t y' hmem
          rw [hy] at this
          exact absurd this hyt
        exact ih hn.2 hsub1 hsub2

theorem nodup_flatMap_of_blocks {A B G : Type} (l : List A) (g : A → List B)
    (key : A → G) (pk : B → G) (hkeys : (l.map key).Nodup)
    (hblocks : ∀ a ∈ l, (g a).Nodup)
    (hconst : ∀ a ∈ l, ∀ b ∈ g a, pk b = key a) :
    (l.flatMap g).Nodup := by
  induction l with
  | nil => simp
  | cons a rest ih =>
    rw [List.flatMap_cons, List.nodup_append]
    rw [List.map_cons, List.nodup_cons] at hkeys
    refine ⟨hblocks a (List.mem_cons_self _ _),
      ih hkeys.2 (fun b hb => hblocks b (List.mem_cons_of_mem _ hb))
        (fun b hb => hconst b (List.mem_cons_of_mem _ hb)), ?_⟩
    intro b hb hb2
    rcases List.mem_flatMap.mp hb2 with ⟨a2, ha2, hba2⟩
    have h1 : pk b = key a := hconst a (List.mem_cons_self _ _) b hb
    have h2 : pk b = key a2 := hconst a2 (List.mem_cons_of_mem _ ha2) b hba2
    have heq : key a = key a2 := h1.symm.trans h2
    exact hkeys.1 (by rw [heq]; exact List.mem_map.mpr ⟨a2, ha2, rfl⟩)

/-! ## Lemmas: the Rule 2/3 pair loop -/

theorem pair_sublist_cons_iff {α : Type} {x y m : α} {rest : List α} :
    [x, y].Sublist (m :: rest) ↔ [x, y].Sublist rest ∨ (x = m ∧ [y].Sublist rest) := by
  constructor
  · intro h
    cases h with
    | cons _ h2 => exact Or.inl h2
    | cons₂ _ h2 => exact Or.inr ⟨rfl, h2⟩
  · rintro (h | ⟨rfl, h⟩)
    · exact List.sublist_cons_of_sublist m h
    · exact List.Sublist.cons₂ _ h

theorem mem_pairConflicts {w : Nat} {fn : String} {mods : List (String × Option String)}
    {c : Conflict} :
    c ∈ pairConflicts w fn mods ↔
      ∃ a b, [a, b].Sublist mods ∧ scopes_overlap a.2 b.2 = true ∧
        c = Conflict.rule23 w a.1 b.1 fn a.2 b.2 := by
  induction mods with
  | nil =>
    simp only [pairConflicts, List.not_mem_nil, false_iff]
    rintro ⟨a, b, hs, -, -⟩
    have := List.sublist_nil.mp hs
    simp at this
  | cons m rest ih =>
    constructor
    · intro h
      rcases List.mem_append.mp h with h | h
      · rcases List.mem_filterMap.mp h with ⟨b, hb, hsome⟩
        by_cases hov : scopes_overlap m.2 b.2 = true
        · rw [if_pos hov] at hsome
          exact ⟨m, b,
            pair_sublist_cons_iff.mpr (Or.inr ⟨rfl, List.singleton_sublist.mpr hb⟩), hov,
            (Option.some_inj.mp hsome).symm⟩
        · rw [if_neg hov] at hsome
          simp at hsome
      · rcases ih.mp h with ⟨a, b, hs, hov, hc⟩
        exact ⟨a, b, List.sublist_cons_of_sublist m hs, hov, hc⟩
    · rintro ⟨a, b, hs, hov, rfl⟩
      rcases pair_sublist_cons_iff.mp hs with hs | ⟨rfl, hb⟩
      · exact List.mem_append.mpr (Or.inr (ih.mpr ⟨a, b, hs, hov, rfl⟩))
      · refine List.mem_append.mpr (Or.inl (List.mem_filterMap.mpr
          ⟨b, List.singleton_sublist.mp hb, ?_⟩))
        rw [if_pos hov]

theorem nodup_pairConflicts {w : Nat} {fn : String} {mods : List (String × Option String)}
    (h : mods.Nodup) : (pairConflicts w fn mods).Nodup := by
  induction mods with
  | nil => simp [pairConflicts]
  | cons m rest ih =>
    rw [List.nodup_cons] at h
    refine List.nodup_append.mpr ⟨?_, ih h.2, ?_⟩
    · refine List.Nodup.filterMap ?_ h.2
      intro b1 b2 c hc1 hc2
      rw [Option.mem_def] at hc1 hc2
      by_cases h1 : scopes_overlap m.2 b1.2 = true
      · by_cases h2 : scopes_overlap m.2 b2.2 = true
        · rw [if_pos h1, Option.some_inj] at hc1
          rw [if_pos h2, Option.some_inj] at hc2
          rw [← hc2] at hc1
          obtain ⟨b1a, b1b⟩ := b1
          obtain ⟨b2a, b2b⟩ := b2
          injection hc1 with e1 e2 e3 e4 e5 e6
          rw [Prod.mk.injEq]
          exact ⟨by simpa using e3, by simpa using e6⟩
        · rw [if_neg h2] at hc2
          simp at hc2
      · rw [if_neg h1] at hc1
        simp at hc1
    · intro c hc1 hc2
      rcases List.mem_filterMap.mp hc1 with ⟨b, hb, hsome⟩
      by_cases h1 : scopes_overlap m.2 b.2 = true
      · rw [if_pos h1, Option.some_inj] at hsome
        rcases mem_pairConflicts.mp hc2 with ⟨a2, b2, hs2, hov2, hc2eq⟩
        rw [← hsome] at hc2eq
        injection hc2eq with e1 e2 e3 e4 e5 e6
        have ha2 : a2 ∈ rest := hs2.subset (List.mem_cons_self _ _)
        have ham : a2 = m := by
          obtain ⟨a2a, a2b⟩ := a2
          obtain ⟨ma, mb⟩ := m
          simp only at e2 e5
          rw [Prod.mk.injEq]
          exact ⟨e2.symm, e5.symm⟩
        exact h.1 (ham ▸ ha2)
      · rw [if_neg h1] at hsome
        simp at hsome

/-! ## Lemmas: the wave and modify maps of the Rule 2/3 loop -/

theorem nodup_keysOf_modifyMapOf (tasks : List (String × TaskData)) (tids : List String) :
    (keysOf (modifyMapOf tasks tids)).Nodup := by
  rw [modifyMapOf_eq]
  exact nodup_keysOf_groupPairs _

theorem nodup_keysOf_wavesMapOf (tasks : List (String × TaskData)) :
    (keysOf (wavesMapOf tasks)).Nodup := by
  rw [wavesMapOf_eq]
  exact nodup_keysOf_groupPairs _

theorem nodup_keysOf_createMapOf (tasks : List (String × TaskData)) :
    (keysOf (createMapOf tasks)).Nodup := by
  rw [createMapOf_eq]
  exact nodup_keysOf_groupPairs _

theorem lookupA_modifyMapOf {tasks : List (String × TaskData)} {tids : List String}
    {fn : String} {mods : List (String × Option String)} :
    lookupA (modifyMapOf tasks tids) fn = some mods ↔
      (mods = modsFor tasks tids fn ∧ mods ≠ []) := by
  rw [modifyMapOf_eq]
  by_cases h : valsOf (modPairs tasks tids) fn = []
  · rw [groupPairs_lookup_of_nil h]
    have hmf : modsFor tasks tids fn = [] := by rw [← valsOf_modPairs]; exact h
    constructor
    · intro hh; simp at hh
    · rintro ⟨rfl, hne⟩
      exact absurd hmf hne
  · rw [groupPairs_lookup_of_ne_nil h, valsOf_modPairs]
    have hne : modsFor tasks tids fn ≠ [] := by rw [← valsOf_modPairs]; exact h
    constructor
    · intro hh
      rw [Option.some_inj] at hh
      exact ⟨hh.symm, by rw [← hh]; exact hne⟩
    · rintro ⟨rfl, -⟩
      rfl

theorem lookupA_wavesMapOf {tasks : List (String × TaskData)} {w : Nat}
    {tids : List String} :
    lookupA (wavesMapOf tasks) w = some tids ↔
      (tids = waveTasks tasks w ∧ tids ≠ []) := by
  rw [wavesMapOf_eq]
  by_cases h : valsOf (wavePairs tasks) w = []
  · rw [groupPairs_lookup_of_nil h]
    have hmf : waveTasks tasks w = [] := by rw [← valsOf_wavePairs]; exact h
    constructor
    · intro hh; simp at hh
    · rintro ⟨rfl, hne⟩
      exact absurd hmf hne
  · rw [groupPairs_lookup_of_ne_nil h, valsOf_wavePairs]
    have hne : waveTasks tasks w ≠ [] := by rw [← valsOf_wavePairs]; exact h
    constructor
    · intro hh
      rw [Option.some_inj] at hh
      exact ⟨hh.symm, by rw [← hh]; exact hne⟩
    · rintro ⟨rfl, -⟩
      rfl

theorem mem_rule23Block_iff {tasks : List (String × TaskData)} {w : Nat}
    {tids : List String} {w' : Nat} {t1 t2 fn : String} {s1 s2 : Option String} :
    Conflict.rule23 w' t1 t2 fn s1 s2 ∈ rule23Block tasks w tids ↔
      (w' = w ∧ 2 ≤ tids.length ∧ 2 ≤ (modsFor tasks tids fn).length ∧
        [(t1, s1), (t2, s2)].Sublist (modsFor tasks tids fn) ∧
        scopes_overlap s1 s2 = true) := by
  unfold rule23Block
  by_cases hlen : tids.length < 2
  · rw [if_pos hlen]
    simp only [List.not_mem_nil, false_iff]
    rintro ⟨-, h2, -⟩
    omega
  · rw [if_neg hlen]
    constructor
    · intro h
      rcases List.mem_flatMap.mp h with ⟨e, he, hin⟩
      obtain ⟨efn, emods⟩ := e
      by_cases hel : emods.length < 2
      · rw [if_pos hel] at hin
        simp at hin
      · rw [if_neg hel] at hin
        rcases mem_pairConflicts.mp hin with ⟨a, b, hs, hov, heq⟩
        injection heq with e1 e2 e3 e4 e5 e6
        have hlk : lookupA (modifyMapOf tasks tids) efn = some emods :=
          (mem_iff_lookupA _ efn emods (nodup_keysOf_modifyMapOf tasks tids)).mp he
        rcases lookupA_modifyMapOf.mp hlk with ⟨hemods, -⟩
        have ha : a = (t1, s1) := Prod.ext e2.symm e5.symm
        have hb : b = (t2, s2) := Prod.ext e3.symm e6.symm
        subst e1
        subst e4
        rw [hemods] at hs hel
        rw [ha, hb] at hs
        rw [ha] at hov
        rw [hb] at hov
        exact ⟨rfl, by omega, by omega, hs, hov⟩
    · rintro ⟨rfl, hlen2, hmlen, hs, hov⟩
      have hne : modsFor tasks tids fn ≠ [] := by
        intro hh
        rw [hh] at hmlen
        simp at hmlen
      have hlk : lookupA (modifyMapOf tasks tids) fn = some (modsFor tasks tids fn) :=
        lookupA_modifyMapOf.mpr ⟨rfl, hne⟩
      have hmem : (fn, modsFor tasks tids fn) ∈ modifyMapOf tasks tids :=
        (mem_iff_lookupA _ _ _ (nodup_keysOf_modifyMapOf tasks tids)).mpr hlk
      refine List.mem_flatMap.mpr ⟨(fn, modsFor tasks tids fn), hmem, ?_⟩
      rw [if_neg (show ¬ (modsFor tasks tids fn).length < 2 from by omega)]
      exact mem_pairConflicts.mpr ⟨(t1, s1), (t2, s2), hs, hov, rfl⟩

theorem mem_rule23ListOf_iff {tasks : List (String × TaskData)} {w : Nat}
    {t1 t2 fn : String} {s1 s2 : Option String} :
    Conflict.rule23 w t1 t2 fn s1 s2 ∈ rule23ListOf tasks ↔
      (2 ≤ (waveTasks tasks w).length ∧
        2 ≤ (modsFor tasks (waveTasks tasks w) fn).length ∧
        [(t1, s1), (t2, s2)].Sublist (modsFor tasks (waveTasks tasks w) fn) ∧
        scopes_overlap s1 s2 = true) := by
  unfold rule23ListOf
  constructor
  · intro h
    rcases List.mem_flatMap.mp h with ⟨we, hwe, hin⟩
    obtain ⟨wv, tids⟩ := we
    have hlk := (mem_iff_lookupA _ wv tids (nodup_keysOf_wavesMapOf tasks)).mp hwe
    rcases lookupA_wavesMapOf.mp hlk with ⟨htids, -⟩
    rcases mem_rule23Block_iff.mp hin with ⟨hw, h2, h3, h4, h5⟩
    subst hw
    rw [htids] at h2 h3 h4
    exact ⟨h2, h3, h4, h5⟩
  · rintro ⟨h2, h3, h4, h5⟩
    have hne : waveTasks tasks w ≠ [] := by
      intro hh
      rw [hh] at h2
      simp at h2
    have hlk : lookupA (wavesMapOf tasks) w = some (waveTasks tasks w) :=
      lookupA_wavesMapOf.mpr ⟨rfl, hne⟩
    have hmem : (w, waveTasks tasks w) ∈ wavesMapOf tasks :=
      (mem_iff_lookupA _ _ _ (nodup_keysOf_wavesMapOf tasks)).mpr hlk
    exact List.mem_flatMap.mpr ⟨(w, waveTasks tasks w), hmem,
      mem_rule23Block_iff.mpr ⟨rfl, h2, h3, h4, h5⟩⟩

/-! ## Lemmas: shapes of the three conflict sections -/

theorem conflicts_eq (tasks : List (String × TaskData)) :
    (validateOwnershipRules tasks).2 =
      rule1ListOf tasks ++ rule23ListOf tasks ++ rule4ListOf tasks := rfl

theorem mem_rule1ListOf_shape {tasks : List (String × TaskData)} {c : Conflict}
    (h : c ∈ rule1ListOf tasks) : ∃ f ts, c = Conflict.rule1 f ts := by
  rcases List.mem_flatMap.mp h with ⟨e, -, hin⟩
  by_cases hl : 1 < e.2.length
  · rw [if_pos hl] at hin
    rw [List.mem_singleton] at hin
    exact ⟨e.1, e.2, hin⟩
  · rw [if_neg hl] at hin
    simp at hin

theorem mem_rule23Block_shape {tasks : List (String × TaskData)} {w : Nat}
    {tids : List String} {c : Conflict} (h : c ∈ rule23Block tasks w tids) :
    ∃ t1 t2 fn s1 s2, c = Conflict.rule23 w t1 t2 fn s1 s2 := by
  unfold rule23Block at h
  by_cases hlen : tids.length < 2
  · rw [if_pos hlen] at h
    simp at h
  · rw [if_neg hlen] at h
    rcases List.mem_flatMap.mp h with ⟨e, -, hin⟩
    by_cases hel : e.2.length < 2
    · rw [if_pos hel] at hin
      simp at hin
    · rw [if_neg hel] at hin
      rcases mem_pairConflicts.mp hin with ⟨a, b, -, -, hc⟩
      exact ⟨a.1, b.1, e.1, a.2, b.2, hc⟩

theorem mem_rule23ListOf_shape {tasks : List (String × TaskData)} {c : Conflict}
    (h : c ∈ rule23ListOf tasks) : ∃ w t1 t2 fn s1 s2, c = Conflict.rule23 w t1 t2 fn s1 s2 := by
  rcases List.mem_flatMap.mp h with ⟨we, -, hin⟩
  rcases mem_rule23Block_shape hin with ⟨t1, t2, fn, s1, s2, hc⟩
  exact ⟨we.1, t1, t2, fn, s1, s2, hc⟩

theorem mem_rule4ListOf_shape {tasks : List (String × TaskData)} {c : Conflict}
    (h : c ∈ rule4ListOf tasks) : ∃ t vs, c = Conflict.rule4 t vs := by
  rcases List.mem_flatMap.mp h with ⟨p, -, hin⟩
  by_cases hv : (firstAppearances (p.2.modify.map (fun f => (parse_scope f).1))).filter
      (fun r => decide (r ∈ firstAppearances (p.2.boundary.map (fun f => (parse_scope f).1)))) |>.isEmpty
  · rw [if_pos hv] at hin
    simp at hin
  · rw [if_neg hv] at hin
    rw [List.mem_singleton] at hin
    exact ⟨p.1, _, hin⟩

/-! ## Lemmas: counting and duplicate freedom of the Rule 2/3 section -/

theorem countEq_append {α : Type} [DecidableEq α] (a : α) (l r : List α) :
    countEq a (l ++ r) = countEq a l + countEq a r := by
  simp [countEq, List.filter_append]

theorem countEq_eq_zero_of_not_mem {α : Type} [DecidableEq α] {a : α} {l : List α}
    (h : a ∉ l) : countEq a l = 0 := by
  rw [countEq, List.length_eq_zero]
  rw [List.filter_eq_nil_iff]
  intro b hb
  simp only [decide_eq_true_eq]
  intro hh
  exact h (hh ▸ hb)

theorem countEq_le_one_of_nodup {α : Type} [DecidableEq α] {l : List α} (h : l.Nodup)
    (a : α) : countEq a l ≤ 1 := by
  induction l with
  | nil => simp [countEq]
  | cons x rest ih =>
    rw [List.nodup_cons] at h
    rw [countEq, List.filter_cons]
    by_cases hx : x = a
    · subst hx
      rw [if_pos (by simp)]
      rw [List.length_cons]
      have : countEq x rest = 0 := countEq_eq_zero_of_not_mem h.1
      rw [countEq] at this
      omega
    · rw [if_neg (by simp [hx])]
      exact ih h.2

theorem lookupA_mem {K W : Type} [DecidableEq K] {m : List (K × W)} {k : K} {v : W}
    (h : lookupA m k = some v) : (k, v) ∈ m := by
  induction m with
  | nil => cases h
  | cons e rest ih =>
    rw [lookupA] at h
    split_ifs at h with he
    · rw [Option.some_inj] at h
      obtain ⟨e1, e2⟩ := e
      cases he
      cases h
      exact List.mem_cons_self _ _
    · exact List.mem_cons_of_mem _ (ih h)

theorem nodup_declsOn (tasks : List (String × TaskData)) (tid fn : String)
    (hdecls : ∀ p ∈ tasks, (modDecls p.2).Nodup) : (declsOn tasks tid fn).Nodup := by
  unfold declsOn modListOf
  cases hlk : lookupA tasks tid with
  | none => simp
  | some td =>
    have htd : (modDecls td).Nodup := hdecls (tid, td) (lookupA_mem hlk)
    refine List.Nodup.map_on ?_ (List.Nodup.filter _ htd)
    intro x hx y hy hxy
    rcases List.mem_filter.mp hx with ⟨-, hx2⟩
    rcases List.mem_filter.mp hy with ⟨-, hy2⟩
    simp only [decide_eq_true_eq] at hx2 hy2
    have h2 : x.2 = y.2 := by
      have := congrArg Prod.snd hxy
      simpa using this
    exact Prod.ext (hx2.trans hy2.symm) h2

theorem nodup_modsFor (tasks : List (String × TaskData)) {tids : List String} (fn : String)
    (htids : tids.Nodup) (hdecls : ∀ p ∈ tasks, (modDecls p.2).Nodup) :
    (modsFor tasks tids fn).Nodup := by
  unfold modsFor
  refine nodup_flatMap_of_blocks tids _ (fun t => t) (fun x => x.1) ?_
    (fun t _ => nodup_declsOn tasks t fn hdecls) (fun t _ x hx => mem_declsOn_fst hx)
  rw [show tids.map (fun t => t) = tids from List.map_id _]
  exact htids

theorem nodup_rule23Block (tasks : List (String × TaskData)) (w : Nat) {tids : List String}
    (htids : tids.Nodup) (hdecls : ∀ p ∈ tasks, (modDecls p.2).Nodup) :
    (rule23Block tasks w tids).Nodup := by
  unfold rule23Block
  by_cases hlen : tids.length < 2
  · rw [if_pos hlen]; simp
  · rw [if_neg hlen]
    refine nodup_flatMap_of_blocks _ _ (fun e => e.1) conflictFile
      (nodup_keysOf_modifyMapOf tasks tids) ?_ ?_
    · intro e he
      by_cases hel : e.2.length < 2
      · rw [if_pos hel]; simp
      · rw [if_neg hel]
        obtain ⟨efn, emods⟩ := e
        have hlk := (mem_iff_lookupA _ efn emods (nodup_keysOf_modifyMapOf tasks tids)).mp he
        rcases lookupA_modifyMapOf.mp hlk with ⟨hemods, -⟩
        subst hemods
        exact nodup_pairConflicts (nodup_modsFor tasks efn htids hdecls)
    · intro e he c hc
      by_cases hel : e.2.length < 2
      · rw [if_pos hel] at hc
        simp at hc
      · rw [if_neg hel] at hc
        rcases mem_pairConflicts.mp hc with ⟨a, b, -, -, hceq⟩
        rw [hceq]
        rfl

theorem nodup_rule23ListOf (tasks : List (String × TaskData))
    (hdecls : ∀ p ∈ tasks, (modDecls p.2).Nodup) (hids : (keysOf tasks).Nodup) :
    (rule23ListOf tasks).Nodup := by
  unfold rule23ListOf
  refine nodup_flatMap_of_blocks _ _ (fun we => we.1) conflictWave
    (nodup_keysOf_wavesMapOf tasks) ?_ ?_
  · intro we hwe
    obtain ⟨wv, tids⟩ := we
    have hlk := (mem_iff_lookupA _ wv tids (nodup_keysOf_wavesMapOf tasks)).mp hwe
    rcases lookupA_wavesMapOf.mp hlk with ⟨htids, -⟩
    subst htids
    exact nodup_rule23Block tasks wv (nodup_waveTasks hids wv) hdecls
  · intro we hwe c hc
    rcases mem_rule23Block_shape hc with ⟨t1, t2, fn, s1, s2, hceq⟩
    rw [hceq]
    rfl

theorem scopes_overlap_comm (a b : Option String) : scopes_overlap a b = scopes_overlap b a := by
  cases a with
  | none => cases b <;> rfl
  | some s1 =>
    cases b with
    | none => rfl
    | some s2 =>
      simp only [scopes_overlap]
      by_cases h : s1 = s2
      · subst h
        rfl
      · rw [if_neg h, if_neg (show ¬ s2 = s1 from fun hh => h hh.symm), Bool.or_comm]

theorem rule23_mem_conflicts_iff {tasks : List (String × TaskData)} {w : Nat}
    {t1 t2 fn : String} {s1 s2 : Option String} :
    Conflict.rule23 w t1 t2 fn s1 s2 ∈ (validateOwnershipRules tasks).2 ↔
      Conflict.rule23 w t1 t2 fn s1 s2 ∈ rule23ListOf tasks := by
  rw [conflicts_eq]
  constructor
  · intro h
    rcases List.mem_append.mp h with h | h
    · rcases List.mem_append.mp h with h | h
      · rcases mem_rule1ListOf_shape h with ⟨f, ts, hc⟩
        exact Conflict.noConfusion hc
      · exact h
    · rcases mem_rule4ListOf_shape h with ⟨t, vs, hc⟩
      exact Conflict.noConfusion hc
  · intro h
    exact List.mem_append.mpr (Or.inl (List.mem_append.mpr (Or.inr h)))

/-- C3: over any task registry with unique task ids whose per-task parsed
MODIFY declaration sets are duplicate-free (the specification's data
model), a Rule 2/3 conflict is emitted exactly for same-wave pairs of
MODIFY declarations on the same resource with overlapping subscopes in a
wave of at least two tasks; every reported conflict is sound, every
overlapping same-wave pair of two distinct tasks is reported in exactly
one orientation, no record is duplicated, no pair is re-reported in
reverse order, and absent subscopes render as `(unscoped)`. -/
theorem claim_C3_rule23_engine (tasks : List (String × TaskData))
    (hids : (keysOf tasks).Nodup)
    (hdecls : ∀ p ∈ tasks, (modDecls p.2).Nodup) :
    Rule23Spec tasks := by
  refine ⟨?_, ?_, ?_, ?_, ?_⟩
  · intro w t1 t2 fn s1 s2 hmem
    rw [rule23_mem_conflicts_iff] at hmem
    rcases mem_rule23ListOf_iff.mp hmem with ⟨h2, h3, h4, h5⟩
    have hx : (t1, s1) ∈ modsFor tasks (waveTasks tasks w) fn := h4.subset (by simp)
    have hy : (t2, s2) ∈ modsFor tasks (waveTasks tasks w) fn := h4.subset (by simp)
    rcases mem_modsFor.mp hx with ⟨ht1, hm1⟩
    rcases mem_modsFor.mp hy with ⟨ht2, hm2⟩
    exact ⟨(mem_waveTasks_iff hids).mp ht1, (mem_waveTasks_iff hids).mp ht2, h2, hm1, hm2, h5⟩
  · intro w t1 t2 fn s1 s2 hne hw1 hw2 hm1 hm2 hov
    have ht1 : t1 ∈ waveTasks tasks w := (mem_waveTasks_iff hids).mpr hw1
    have ht2 : t2 ∈ waveTasks tasks w := (mem_waveTasks_iff hids).mpr hw2
    have h2 : 2 ≤ (waveTasks tasks w).length := two_mem_two_le_length ht1 ht2 hne
    have hd1 : (t1, s1) ∈ modsFor tasks (waveTasks tasks w) fn :=
      mem_modsFor.mpr ⟨ht1, hm1⟩
    have hd2 : (t2, s2) ∈ modsFor tasks (waveTasks tasks w) fn :=
      mem_modsFor.mpr ⟨ht2, hm2⟩
    have hdne : ((t1, s1) : String × Option String) ≠ (t2, s2) := by
      intro hh
      exact hne (congrArg Prod.fst hh)
    have h3 : 2 ≤ (modsFor tasks (waveTasks tasks w) fn).length :=
      two_mem_two_le_length hd1 hd2 hdne
    have hg1 : (t1, s1) ∈ declsOn tasks t1 fn := mem_declsOn_iff_modifiesWith.mpr hm1
    have hg2 : (t2, s2) ∈ declsOn tasks t2 fn := mem_declsOn_iff_modifiesWith.mpr hm2
    rcases mem_split_pair ht1 ht2 hne with ⟨u, v, heq, hmv⟩ | ⟨u, v, heq, hmv⟩
    · have hs : [(t1, s1), (t2, s2)].Sublist (modsFor tasks (waveTasks tasks w) fn) := by
        rw [show modsFor tasks (waveTasks tasks w) fn =
          (waveTasks tasks w).flatMap (fun tid => declsOn tasks tid fn) from rfl, heq]
        exact pair_sublist_flatMap _ hg1 hg2 hmv
      exact Or.inl (rule23_mem_conflicts_iff.mpr (mem_rule23ListOf_iff.mpr ⟨h2, h3, hs, hov⟩))
    · have hs : [(t2, s2), (t1, s1)].Sublist (modsFor tasks (waveTasks tasks w) fn) := by
        rw [show modsFor tasks (waveTasks tasks w) fn =
          (waveTasks tasks w).flatMap (fun tid => declsOn tasks tid fn) from rfl, heq]
        exact pair_sublist_flatMap _ hg2 hg1 hmv
      have hov2 : scopes_overlap s2 s1 = true := by
        rw [scopes_overlap_comm]
        exact hov
      exact Or.inr (rule23_mem_conflicts_iff.mpr (mem_rule23ListOf_iff.mpr ⟨h2, h3, hs, hov2⟩))
  · intro w t1 t2 fn s1 s2
    rw [conflicts_eq, countEq_append, countEq_append]
    have h1 : countEq (Conflict.rule23 w t1 t2 fn s1 s2) (rule1ListOf tasks) = 0 :=
      countEq_eq_zero_of_not_mem (fun hm => by
        rcases mem_rule1ListOf_shape hm with ⟨f, ts, hc⟩
        exact Conflict.noConfusion hc)
    have h4 : countEq (Conflict.rule23 w t1 t2 fn s1 s2) (rule4ListOf tasks) = 0 :=
      countEq_eq_zero_of_not_mem (fun hm => by
        rcases mem_rule4ListOf_shape hm with ⟨t, vs, hc⟩
        exact Conflict.noConfusion hc)
    have h23 : countEq (Conflict.rule23 w t1 t2 fn s1 s2) (rule23ListOf tasks) ≤ 1 :=
      countEq_le_one_of_nodup (nodup_rule23ListOf tasks hdecls hids) _
    omega
  · intro w t1 t2 fn s1 s2 s1' s2' hne hmem hmem2
    rw [rule23_mem_conflicts_iff] at hmem
    rw [rule23_mem_conflicts_iff] at hmem2
    rcases mem_rule23ListOf_iff.mp hmem with ⟨-, -, h4, -⟩
    rcases mem_rule23ListOf_iff.mp hmem2 with ⟨-, -, h4x, -⟩
    exact hne (@flatMap_fst_both_orders String (Option String) (waveTasks tasks w)
      (fun tid => declsOn tasks tid fn) (fun t x hx => mem_declsOn_fst hx)
      (t1, s1) (t2, s2) (t1, s2') (t2, s1') rfl rfl (nodup_waveTasks hids w) h4 h4x)
  · intro w t1 t2 fn
    rfl

/-! ## Lemmas: prefix containment for the scope model -/

theorem pyStartswith_iff {s pre : String} :
    pyStartswith s pre = true ↔ ∃ t : String, s = pre ++ t := by
  unfold pyStartswith
  rw [List.isPrefixOf_iff_prefix]
  constructor
  · rintro ⟨t, ht⟩
    refine ⟨String.mk t, ?_⟩
    apply String.ext
    rw [String.data_append]
    exact ht.symm
  · rintro ⟨t, rfl⟩
    exact ⟨t.data, (String.data_append _ _).symm⟩

/-- C1: the scope overlap predicate holds exactly when either side is
unscoped, the scope strings are identical, or one equals the other plus a
trailing `.`-separated suffix; in particular two distinct sibling scopes
do not overlap. -/
theorem claim_C1_scopes_overlap (a b : Option String) :
    (scopes_overlap a b = true ↔ specOverlap a b) ∧
      scopes_overlap (some "ClassA.methodX") (some "ClassA.methodY") = false := by
  refine ⟨?_, by decide⟩
  cases a with
  | none => simp [scopes_overlap, specOverlap]
  | some s1 =>
    cases b with
    | none => simp [scopes_overlap, specOverlap]
    | some s2 =>
      simp only [scopes_overlap, specOverlap]
      constructor
      · intro h
        split_ifs at h with h1 h2
        · exact Or.inr (Or.inr ⟨s1, s2, rfl, rfl, Or.inl h1⟩)
        · rw [Bool.or_eq_true] at h2
          rcases h2 with h2 | h2
          · rcases pyStartswith_iff.mp h2 with ⟨suf, hsuf⟩
            exact Or.inr (Or.inr ⟨s1, s2, rfl, rfl, Or.inr (Or.inl ⟨suf, hsuf⟩)⟩)
          · rcases pyStartswith_iff.mp h2 with ⟨suf, hsuf⟩
            exact Or.inr (Or.inr ⟨s1, s2, rfl, rfl, Or.inr (Or.inr ⟨suf, hsuf⟩)⟩)
      · intro h
        rcases h with h | h | ⟨s1x, s2x, h1, h2, h3⟩
        · exact Option.noConfusion h
        · exact Option.noConfusion h
        · rw [Option.some_inj] at h1 h2
          subst h1
          subst h2
          rcases h3 with h3 | ⟨suf, h3⟩ | ⟨suf, h3⟩
          · rw [if_pos h3]
          · by_cases he : s1 = s2
            · rw [if_pos he]
            · rw [if_neg he]
              have hp : pyStartswith s1 (s2 ++ ".") = true := pyStartswith_iff.mpr ⟨suf, h3⟩
              simp [hp]
          · by_cases he : s1 = s2
            · rw [if_pos he]
            · rw [if_neg he]
              have hp : pyStartswith s2 (s1 ++ ".") = true := pyStartswith_iff.mpr ⟨suf, h3⟩
              simp [hp]

/-! ## Lemmas: the Rule 1 section -/

theorem filter_rule1_flatMap_none (cm : List (String × List String)) (r : String)
    (hnone : lookupA cm r = none) :
    (cm.flatMap (fun e => if 1 < e.2.length then [Conflict.rule1 e.1 e.2] else [])).filter
      (isRule1For r) = [] := by
  induction cm with
  | nil => rfl
  | cons e rest ih =>
    by_cases he : e.1 = r
    · rw [lookupA, if_pos he] at hnone
      cases hnone
    · rw [lookupA, if_neg he] at hnone
      rw [List.flatMap_cons, List.filter_append, ih hnone, List.append_nil]
      by_cases hf : 1 < e.2.length
      · rw [if_pos hf]
        simp [isRule1For, he]
      · rw [if_neg hf]
        rfl

theorem filter_rule1_flatMap_some (cm : List (String × List String)) (r : String)
    (hk : (keysOf cm).Nodup) {vs : List String} (hsome : lookupA cm r = some vs) :
    (cm.flatMap (fun e => if 1 < e.2.length then [Conflict.rule1 e.1 e.2] else [])).filter
      (isRule1For r) = if 1 < vs.length then [Conflict.rule1 r vs] else [] := by
  induction cm with
  | nil => cases hsome
  | cons e rest ih =>
    rw [keysOf_cons, List.nodup_cons] at hk
    rw [List.flatMap_cons, List.filter_append]
    by_cases he : e.1 = r
    · subst he
      rw [lookupA, if_pos rfl, Option.some_inj] at hsome
      subst hsome
      rw [filter_rule1_flatMap_none rest e.1 ((lookupA_eq_none rest e.1).mpr hk.1),
        List.append_nil]
      by_cases hf : 1 < e.2.length
      · rw [if_pos hf]
        simp [isRule1For]
      · rw [if_neg hf]
        rfl
    · rw [lookupA, if_neg he] at hsome
      have hhead : (if 1 < e.2.length then [Conflict.rule1 e.1 e.2] else []).filter
          (isRule1For r) = [] := by
        by_cases hf : 1 < e.2.length
        · rw [if_pos hf]
          simp [isRule1For, he]
        · rw [if_neg hf]
          rfl
      rw [hhead, List.nil_append]
      exact ih hk.2 hsome

theorem filter_rule1ListOf_none (tasks : List (String × TaskData)) (r : String)
    (hnone : lookupA (createMapOf tasks) r = none) :
    (rule1ListOf tasks).filter (isRule1For r) = [] :=
  filter_rule1_flatMap_none (createMapOf tasks) r hnone

theorem filter_rule1ListOf_some (tasks : List (String × TaskData)) (r : String)
    {vs : List String} (hsome : lookupA (createMapOf tasks) r = some vs) :
    (rule1ListOf tasks).filter (isRule1For r) =
      if 1 < vs.length then [Conflict.rule1 r vs] else [] :=
  filter_rule1_flatMap_some (createMapOf tasks) r (nodup_keysOf_createMapOf tasks) hsome

/-- C2: over any task registry with unique task ids whose per-task CREATE
resource-name sets are duplicate-free (the specification's data model, in
which CREATE is a set), a resource claimed by two or more tasks yields
exactly one Rule 1 conflict naming all claiming task ids in registry
order, and a resource claimed by at most one task is named by no Rule 1
conflict. -/
theorem claim_C2_rule1_create (tasks : List (String × TaskData)) (r : String)
    (_hids : (keysOf tasks).Nodup)
    (hcr : ∀ p ∈ tasks, (createsOf p.2).Nodup) :
    (2 ≤ (createClaimers tasks r).length →
        (validateOwnershipRules tasks).2.filter (isRule1For r) =
          [Conflict.rule1 r (createClaimers tasks r)]) ∧
    ((createClaimers tasks r).length ≤ 1 →
        (validateOwnershipRules tasks).2.filter (isRule1For r) = []) := by
  have h23 : (rule23ListOf tasks).filter (isRule1For r) = [] := by
    rw [List.filter_eq_nil_iff]
    intro c hc
    rcases mem_rule23ListOf_shape hc with ⟨w, t1, t2, fn, s1, s2, rfl⟩
    simp [isRule1For]
  have h4 : (rule4ListOf tasks).filter (isRule1For r) = [] := by
    rw [List.filter_eq_nil_iff]
    intro c hc
    rcases mem_rule4ListOf_shape hc with ⟨t, vs, rfl⟩
    simp [isRule1For]
  constructor
  · intro hlen
    have hne : createClaimers tasks r ≠ [] := by
      intro hh
      rw [hh] at hlen
      simp at hlen
    have hlk : lookupA (createMapOf tasks) r = some (createClaimers tasks r) := by
      rw [createMapOf_eq]
      rw [groupPairs_lookup_of_ne_nil (by
        rw [valsOf_createPairs tasks r hcr]
        exact hne), valsOf_createPairs tasks r hcr]
    rw [conflicts_eq, List.filter_append, List.filter_append, h23, h4,
      List.append_nil, List.append_nil, filter_rule1ListOf_some tasks r hlk]
    rw [if_pos (by omega)]
  · intro hlen
    rw [conflicts_eq, List.filter_append, List.filter_append, h23, h4,
      List.append_nil, List.append_nil]
    by_cases h : createClaimers tasks r = []
    · have hlk : lookupA (createMapOf tasks) r = none := by
        rw [createMapOf_eq]
        exact groupPairs_lookup_of_nil (by rw [valsOf_createPairs tasks r hcr]; exact h)
      exact filter_rule1ListOf_none tasks r hlk
    · have hlk : lookupA (createMapOf tasks) r = some (createClaimers tasks r) := by
        rw [createMapOf_eq]
        rw [groupPairs_lookup_of_ne_nil (by
          rw [valsOf_createPairs tasks r hcr]
          exact h), valsOf_createPairs tasks r hcr]
      rw [filter_rule1ListOf_some tasks r hlk]
      rw [if_neg (by omega)]

theorem claim_C2_witness :
    ((keysOf exTasksCreate).Nodup ∧ ∀ p ∈ exTasksCreate, (createsOf p.2).Nodup) ∧
      ((2 ≤ (createClaimers exTasksCreate "shared.py").length →
          (validateOwnershipRules exTasksCreate).2.filter (isRule1For "shared.py") =
            [Conflict.rule1 "shared.py" (createClaimers exTasksCreate "shared.py")]) ∧
        ((createClaimers exTasksCreate "shared.py").length ≤ 1 →
          (validateOwnershipRules exTasksCreate).2.filter (isRule1For "shared.py") = [])) :=
  ⟨⟨by decide, by decide⟩,
    claim_C2_rule1_create exTasksCreate "shared.py" (by decide) (by decide)⟩

theorem claim_C3_witness :
    ((keysOf exTasksModify).Nodup ∧ ∀ p ∈ exTasksModify, (modDecls p.2).Nodup) ∧
      Rule23Spec exTasksModify :=
  ⟨⟨by decide, by decide⟩,
    claim_C3_rule23_engine exTasksModify (by decide) (by decide)⟩

/-! ## Lemmas: the Rule 4 section -/

theorem rule4ListOf_cons (p : String × TaskData) (rest : List (String × TaskData)) :
    rule4ListOf (p :: rest) =
      (if (rule4Viol p.2).isEmpty then [] else [Conflict.rule4 p.1 (rule4Viol p.2)]) ++
        rule4ListOf rest := by
  rw [rule4ListOf, List.flatMap_cons]
  rfl

theorem filter_rule4ListOf_not_mem {tasks : List (String × TaskData)} {tid : String}
    (hnm : tid ∉ keysOf tasks) :
    (rule4ListOf tasks).filter (isRule4For tid) = [] := by
  induction tasks with
  | nil => rfl
  | cons p rest ih =>
    rw [keysOf_cons] at hnm
    have hp : ¬ p.1 = tid := fun hh => hnm (hh ▸ List.mem_cons_self _ _)
    have hr : tid ∉ keysOf rest := fun hh => hnm (List.mem_cons_of_mem _ hh)
    rw [rule4ListOf_cons, List.filter_append, ih hr, List.append_nil]
    by_cases hv : (rule4Viol p.2).isEmpty
    · rw [if_pos hv]
      rfl
    · rw [if_neg hv]
      simp [isRule4For, hp]

theorem filter_rule4ListOf_mem {tasks : List (String × TaskData)} {tid : String}
    {td : TaskData} (hids : (keysOf tasks).Nodup) (hmem : (tid, td) ∈ tasks) :
    (rule4ListOf tasks).filter (isRule4For tid) =
      if (rule4Viol td).isEmpty then [] else [Conflict.rule4 tid (rule4Viol td)] := by
  induction tasks with
  | nil => simp at hmem
  | cons p rest ih =>
    rw [keysOf_cons, List.nodup_cons] at hids
    rw [rule4ListOf_cons, List.filter_append]
    rcases List.mem_cons.mp hmem with hm | hm
    · obtain ⟨p1, p2⟩ := p
      cases hm
      rw [filter_rule4ListOf_not_mem hids.1, List.append_nil]
      by_cases hv : (rule4Viol td).isEmpty
      · rw [if_pos hv]
        rfl
      · rw [if_neg hv]
        simp [isRule4For]
    · have hp : ¬ p.1 = tid := by
        intro hh
        subst hh
        exact hids.1 (List.mem_map.mpr ⟨(p.1, td), hm, rfl⟩)
      have hhead : (if (rule4Viol p.2).isEmpty then []
          else [Conflict.rule4 p.1 (rule4Viol p.2)]).filter (isRule4For tid) = [] := by
        by_cases hv : (rule4Viol p.2).isEmpty
        · rw [if_pos hv]
          rfl
        · rw [if_neg hv]
          simp [isRule4For, hp]
      rw [hhead, List.nil_append]
      exact ih hids.2 hm

theorem mem_rule4Viol {td : TaskData} {r : String} :
    r ∈ rule4Viol td ↔ (r ∈ modNamesOf td ∧ r ∈ boundNamesOf td) := by
  unfold rule4Viol
  rw [List.mem_filter, mem_firstAppearances]
  simp [mem_firstAppearances]

/-- C4: over any task registry with unique task ids, a task receives a
Rule 4 conflict exactly when its MODIFY resource names (scope stripped)
meet its BOUNDARY resource names; the single conflict names the task and
exactly the resources of the intersection, and a task with an empty
intersection receives none. -/
theorem claim_C4_rule4_boundary (tasks : List (String × TaskData))
    (hids : (keysOf tasks).Nodup) :
    ∀ tid td, (tid, td) ∈ tasks →
      (((∃ r, r ∈ modNamesOf td ∧ r ∈ boundNamesOf td) →
          ∃ vs, (validateOwnershipRules tasks).2.filter (isRule4For tid) =
              [Conflict.rule4 tid vs] ∧
            ∀ r, r ∈ vs ↔ (r ∈ modNamesOf td ∧ r ∈ boundNamesOf td)) ∧
        ((¬ ∃ r, r ∈ modNamesOf td ∧ r ∈ boundNamesOf td) →
          (validateOwnershipRules tasks).2.filter (isRule4For tid) = [])) := by
  intro tid td hmem
  have h1 : (rule1ListOf tasks).filter (isRule4For tid) = [] := by
    rw [List.filter_eq_nil_iff]
    intro c hc
    rcases mem_rule1ListOf_shape hc with ⟨f, ts, rfl⟩
    simp [isRule4For]
  have h23 : (rule23ListOf tasks).filter (isRule4For tid) = [] := by
    rw [List.filter_eq_nil_iff]
    intro c hc
    rcases mem_rule23ListOf_shape hc with ⟨w, t1, t2, fn, s1, s2, rfl⟩
    simp [isRule4For]
  have hrw : (validateOwnershipRules tasks).2.filter (isRule4For tid) =
      (rule4ListOf tasks).filter (isRule4For tid) := by
    rw [conflicts_eq, List.filter_append, List.filter_append, h1, h23]
    simp
  constructor
  · rintro ⟨r, hr⟩
    have hne : ¬ (rule4Viol td).isEmpty := by
      rw [List.isEmpty_iff]
      intro hh
      have : r ∈ rule4Viol td := mem_rule4Viol.mpr hr
      rw [hh] at this
      simp at this
    refine ⟨rule4Viol td, ?_, fun r2 => mem_rule4Viol⟩
    rw [hrw, filter_rule4ListOf_mem hids hmem, if_neg hne]
  · intro hno
    have hemp : (rule4Viol td).isEmpty := by
      rw [List.isEmpty_iff, List.eq_nil_iff_forall_not_mem]
      intro r hr
      exact hno ⟨r, mem_rule4Viol.mp hr⟩
    rw [hrw, filter_rule4ListOf_mem hids hmem, if_pos hemp]

/-! ## Lemmas: ordering of the conflict list (C5) -/

theorem flatMap_filter_append_left_nil {G X : Type} (ks : List G) (he L2 : List X)
    (p : G → X → Bool) (h : ∀ k ∈ ks, he.filter (p k) = []) :
    ks.flatMap (fun k => (he ++ L2).filter (p k)) = ks.flatMap (fun k => L2.filter (p k)) := by
  induction ks with
  | nil => rfl
  | cons k ks ih =>
    rw [List.flatMap_cons, List.flatMap_cons, List.filter_append,
      h k (List.mem_cons_self _ _), List.nil_append,
      ih (fun k2 hk2 => h k2 (List.mem_cons_of_mem _ hk2))]

theorem map_flatMap_grouped {E G X : Type} [DecidableEq G] (ms : List E) (g : E → List X)
    (key : E → G) (proj : X → G) (hkeys : (ms.map key).Nodup)
    (hconst : ∀ e ∈ ms, ∀ x ∈ g e, proj x = key e) :
    (ms.flatMap g).map proj =
      (ms.map key).flatMap
        (fun k => ((ms.flatMap g).map proj).filter (fun k0 => decide (k0 = k))) := by
  induction ms with
  | nil => rfl
  | cons e rest ih =>
    rw [List.map_cons, List.nodup_cons] at hkeys
    rw [List.flatMap_cons, List.map_append, List.map_cons, List.flatMap_cons]
    have hhe : ∀ x ∈ (g e).map proj, x = key e := by
      intro x hx
      rcases List.mem_map.mp hx with ⟨x0, hx0, rfl⟩
      exact hconst e (List.mem_cons_self _ _) x0 hx0
    have h1 : ((g e).map proj).filter (fun k0 => decide (k0 = key e)) = (g e).map proj :=
      List.filter_eq_self.mpr (fun a ha => by simp [hhe a ha])
    have h2 : ((rest.flatMap g).map proj).filter (fun k0 => decide (k0 = key e)) = [] := by
      rw [List.filter_eq_nil_iff]
      intro a ha
      rcases List.mem_map.mp ha with ⟨x0, hx0, rfl⟩
      rcases List.mem_flatMap.mp hx0 with ⟨e2, he2, hxe2⟩
      rw [hconst e2 (List.mem_cons_of_mem _ he2) x0 hxe2]
      simp only [decide_eq_true_eq]
      intro hh
      exact hkeys.1 (hh ▸ List.mem_map.mpr ⟨e2, he2, rfl⟩)
    rw [List.filter_append, h1, h2, List.append_nil]
    have h3 : ∀ k ∈ rest.map key, ((g e).map proj).filter (fun k0 => decide (k0 = k)) = [] := by
      intro k hk
      rw [List.filter_eq_nil_iff]
      intro a ha
      rw [hhe a ha]
      simp only [decide_eq_true_eq]
      intro hh
      exact hkeys.1 (hh ▸ hk)
    rw [flatMap_filter_append_left_nil _ _ _ _ h3]
    rw [← ih hkeys.2 (fun e2 he2 => hconst e2 (List.mem_cons_of_mem _ he2))]

/-- C5 (amended): the engine's conflict list is all Rule 1 records, then
all Rule 2/3 records grouped per wave with the waves in first-appearance
(registry) order — not in ascending wave-number order — then all Rule 4
records in task registry order. -/
theorem claim_C5_amended_order (tasks : List (String × TaskData)) :
    ∃ l1 l2 l3,
      (validateOwnershipRules tasks).2 = l1 ++ l2 ++ l3 ∧
      (∀ c ∈ l1, isR1 c = true) ∧ (∀ c ∈ l2, isR23 c = true) ∧
      (∀ c ∈ l3, isR4 c = true) ∧
      (l2.map conflictWave =
        (firstAppearances (tasks.map (fun p => p.2.wave))).flatMap
          (fun w => (l2.map conflictWave).filter (fun w0 => decide (w0 = w)))) ∧
      (l3.map conflictTask).Sublist (tasks.map (fun p => p.1)) := by
  refine ⟨rule1ListOf tasks, rule23ListOf tasks, rule4ListOf tasks, conflicts_eq tasks,
    ?_, ?_, ?_, ?_, ?_⟩
  · intro c hc
    rcases mem_rule1ListOf_shape hc with ⟨f, ts, rfl⟩
    rfl
  · intro c hc
    rcases mem_rule23ListOf_shape hc with ⟨w, t1, t2, fn, s1, s2, rfl⟩
    rfl
  · intro c hc
    rcases mem_rule4ListOf_shape hc with ⟨t, vs, rfl⟩
    rfl
  · have hconst : ∀ we ∈ wavesMapOf tasks, ∀ c ∈ rule23Block tasks we.1 we.2,
        conflictWave c = we.1 := by
      intro we hwe c hc
      rcases mem_rule23Block_shape hc with ⟨t1, t2, fn, s1, s2, rfl⟩
      rfl
    have hgrp := map_flatMap_grouped (wavesMapOf tasks)
      (fun we => rule23Block tasks we.1 we.2) (fun we => we.1) conflictWave
      (nodup_keysOf_wavesMapOf tasks) hconst
    have hk2 : (wavesMapOf tasks).map (fun we => we.1) =
        firstAppearances (tasks.map (fun p => p.2.wave)) := by
      rw [show (wavesMapOf tasks).map (fun we => we.1) = keysOf (wavesMapOf tasks) from rfl,
        wavesMapOf_eq, keysOf_groupPairs]
      rw [show (wavePairs tasks).map (fun p => p.1) = tasks.map (fun p => p.2.wave) from by
        rw [wavePairs, List.map_map]; rfl]
    rw [← hk2]
    exact hgrp
  · have hsub : ∀ ts : List (String × TaskData),
        ((rule4ListOf ts).map conflictTask).Sublist (ts.map (fun p => p.1)) := by
      intro ts
      induction ts with
      | nil => simp [rule4ListOf]
      | cons p rest ih =>
        rw [rule4ListOf_cons, List.map_append, List.map_cons]
        by_cases hv : (rule4Viol p.2).isEmpty
        · rw [if_pos hv]
          exact List.sublist_cons_of_sublist _ ih
        · rw [if_neg hv]
          exact List.Sublist.cons₂ _ ih
    exact hsub tasks

/-- C5 (counterexample): on a registry whose wave 2 tasks precede its
wave 1 tasks, the conflict list has no decomposition into a Rule 1
part, a Rule 2/3 part with ascending wave numbers, and a Rule 4 part —
the Rule 2/3 conflicts come out in first-appearance order (wave 2 before
wave 1), refuting the claimed ascending wave-number order. -/
theorem claim_C5_counterexample :
    ¬ ∃ l1 l2 l3,
        (validateOwnershipRules exTasksWaveOrder).2 = l1 ++ l2 ++ l3 ∧
        (∀ c ∈ l1, isR1 c = true) ∧ (∀ c ∈ l2, isR23 c = true) ∧
        (∀ c ∈ l3, isR4 c = true) ∧
        (l2.map conflictWave).Pairwise (· ≤ ·) := by
  rintro ⟨l1, l2, l3, heq, h1, h2, h3, hp⟩
  have hconf : (validateOwnershipRules exTasksWaveOrder).2 =
      [Conflict.rule23 2 "task-1" "task-2" "f.py" none none,
       Conflict.rule23 1 "task-3" "task-4" "g.py" none none] := by decide
  rw [hconf] at heq
  have hsub : l2.Sublist
      [Conflict.rule23 2 "task-1" "task-2" "f.py" none none,
       Conflict.rule23 1 "task-3" "task-4" "g.py" none none] := by
    rw [heq]
    exact ((List.sublist_append_left l2 l3).trans
      (List.sublist_append_right l1 (l2 ++ l3))).trans (by rw [List.append_assoc])
  have hmem : ∀ c, c ∈ ([Conflict.rule23 2 "task-1" "task-2" "f.py" none none,
      Conflict.rule23 1 "task-3" "task-4" "g.py" none none] : List Conflict) →
      isR23 c = true → c ∈ l2 := by
    intro c hc hc23
    rw [heq] at hc
    rcases List.mem_append.mp hc with hc | hc
    · rcases List.mem_append.mp hc with hc | hc
      · exfalso
        have hshape := h1 c hc
        cases c <;> simp [isR1, isR23] at hshape hc23
      · exact hc
    · exfalso
      have hshape := h3 c hc
      cases c <;> simp [isR4, isR23] at hshape hc23
  have hA : Conflict.rule23 2 "task-1" "task-2" "f.py" none none ∈ l2 :=
    hmem _ (by simp) (by decide)
  have hB : Conflict.rule23 1 "task-3" "task-4" "g.py" none none ∈ l2 :=
    hmem _ (by simp) (by decide)
  have hlen2 : 2 ≤ l2.length := two_mem_two_le_length hA hB (by decide)
  have hlen2b : l2.length ≤ 2 := by
    have := hsub.length_le
    simpa using this
  have hl2 : l2 = [Conflict.rule23 2 "task-1" "task-2" "f.py" none none,
      Conflict.rule23 1 "task-3" "task-4" "g.py" none none] :=
    hsub.eq_of_length (by simp; omega)
  rw [hl2] at hp
  have h21 : (2 : Nat) ≤ 1 := by
    have := List.pairwise_cons.mp hp
    exact this.1 1 (by simp [conflictWave])
  omega

theorem claim_C4_witness :
    ((keysOf exTasksBoundary).Nodup ∧ ( "task-1", exTd1) ∈ exTasksBoundary) ∧
      (((∃ r, r ∈ modNamesOf exTd1 ∧ r ∈ boundNamesOf exTd1) →
          ∃ vs, (validateOwnershipRules exTasksBoundary).2.filter (isRule4For "task-1") =
              [Conflict.rule4 "task-1" vs] ∧
            ∀ r, r ∈ vs ↔ (r ∈ modNamesOf exTd1 ∧ r ∈ boundNamesOf exTd1)) ∧
        ((¬ ∃ r, r ∈ modNamesOf exTd1 ∧ r ∈ boundNamesOf exTd1) →
          (validateOwnershipRules exTasksBoundary).2.filter (isRule4For "task-1") = [])) :=
  ⟨⟨by decide, by decide⟩,
    claim_C4_rule4_boundary exTasksBoundary (by decide) "task-1" exTd1 (by decide)⟩

/-! ## Lemmas: the registry-building fold of the parser (C8) -/

theorem lookupA_dictSet {K V : Type} [DecidableEq K] (m : List (K × V)) (k k' : K) (v : V) :
    lookupA (dictSet m k v) k' = if k' = k then some v else lookupA m k' := by
  induction m with
  | nil =>
    by_cases h : k' = k
    · subst h
      simp [dictSet, lookupA]
    · rw [if_neg h]
      simp [dictSet, lookupA, show ¬ k = k' from fun hh => h hh.symm]
  | cons e rest ih =>
    obtain ⟨ek, ev⟩ := e
    by_cases he : ek = k
    · subst he
      by_cases h : k' = ek
      · subst h
        simp [dictSet, lookupA]
      · rw [if_neg h]
        simp [dictSet, lookupA, show ¬ ek = k' from fun hh => h hh.symm]
    · by_cases h2 : ek = k'
      · subst h2
        rw [if_neg (show ¬ ek = k from he)]
        simp [dictSet, lookupA, he]
      · simp [dictSet, lookupA, he, h2, ih]

theorem keysOf_dictSet {K V : Type} [DecidableEq K] (m : List (K × V)) (k : K) (v : V) :
    keysOf (dictSet m k v) = if k ∈ keysOf m then keysOf m else keysOf m ++ [k] := by
  induction m with
  | nil => simp [dictSet, keysOf]
  | cons e rest ih =>
    by_cases he : e.1 = k
    · subst he
      simp [dictSet, keysOf_cons]
    · simp only [dictSet, if_neg he, keysOf_cons]
      rw [ih]
      by_cases hm : k ∈ keysOf rest
      · rw [if_pos hm, if_pos (List.mem_cons_of_mem _ hm)]
      · rw [if_neg hm,
          if_neg (show k ∉ e.1 :: keysOf rest from by
            simp [hm, show ¬ k = e.1 from fun hh => he hh.symm])]
        simp

theorem nodup_keysOf_foldl_dictSet {K V : Type} [DecidableEq K] (ms : List (K × V))
    (m : List (K × V)) (h : (keysOf m).Nodup) :
    (keysOf (ms.foldl (fun acc p => dictSet acc p.1 p.2) m)).Nodup := by
  induction ms generalizing m with
  | nil => exact h
  | cons p ms ih =>
    rw [List.foldl_cons]
    refine ih _ ?_
    rw [keysOf_dictSet]
    by_cases hm : p.1 ∈ keysOf m
    · rw [if_pos hm]
      exact h
    · rw [if_neg hm]
      simp [List.nodup_append, h, hm]

theorem lookupA_foldl_dictSet {K V : Type} [DecidableEq K] (ms : List (K × V))
    (m : List (K × V)) (k : K) :
    lookupA (ms.foldl (fun acc p => dictSet acc p.1 p.2) m) k =
      orO ((valsOf ms k).getLast?) (lookupA m k) := by
  induction ms generalizing m with
  | nil => rfl
  | cons p ms ih =>
    rw [List.foldl_cons, ih, valsOf_cons, lookupA_dictSet]
    by_cases h : p.1 = k
    · subst h
      rw [if_pos rfl, if_pos rfl, List.getLast?_cons]
      cases hl : (valsOf ms p.1).getLast? with
      | none => simp [orO, hl]
      | some v => simp [orO, hl]
    · rw [if_neg h, if_neg (show ¬ k = p.1 from fun hh => h hh.symm)]

/-- C8: for every plan text the parser's task registry holds exactly one
record per task identifier, and for a duplicated identifier the record is
the one of the last-parsed section — earlier sections' declarations are
silently overwritten, with no error or conflict; the concrete plan
`planDupIds` with two `task-1` sections yields only the second section's
record. -/
theorem claim_C8_duplicate_ids_overwrite (content : String) :
    (keysOf (parseTaskMetadata content)).Nodup ∧
      (∀ tid, lookupA (parseTaskMetadata content) tid =
        (((taskRecords content).filter (fun p => decide (p.1 = tid))).map
          (fun p => p.2)).getLast?) ∧
      parseTaskMetadata planDupIds = [( "task-1", ⟨2, [ "b.py"], [], []⟩)] := by
  refine ⟨?_, ?_, by decide⟩
  · exact nodup_keysOf_foldl_dictSet (taskRecords content) [] (by simp [keysOf])
  · intro tid
    rw [show parseTaskMetadata content =
      (taskRecords content).foldl (fun acc p => dictSet acc p.1 p.2) [] from rfl]
    rw [lookupA_foldl_dictSet]
    cases hl : (valsOf (taskRecords content) tid).getLast? with
    | none =>
      rw [show lookupA ([] : List (String × TaskData)) tid = none from rfl]
      rw [show valsOf (taskRecords content) tid =
        ((taskRecords content).filter (fun p => decide (p.1 = tid))).map (fun p => p.2)
        from rfl] at hl
      rw [hl]
      rfl
    | some v =>
      rw [show valsOf (taskRecords content) tid =
        ((taskRecords content).filter (fun p => decide (p.1 = tid))).map (fun p => p.2)
        from rfl] at hl
      rw [hl]
      rfl

/-- C6 (the code at the failing input): a task section whose wave field
is textually present but not a bare or `W`-prefixed integer is not
matched by the task pattern at all, so the parser drops the section —
it does not produce a record with wave `0` as the claim (and the
`int`/`ValueError` fallback in the source) intends; the identical section
with a parseable wave is kept, and validation of the bad plan silently
passes with the no-tasks message. -/
theorem claim_C6_unparseable_wave_drops_section :
    parseTaskMetadata planBadWave = [] ∧
      parseTaskMetadata planGoodWave = [( "task-1", ⟨7, [ "foo.py"], [], []⟩)] ∧
      validateContent "plan.md" planBadWave =
        ⟨true, "continue", some (noTasksMsg "plan.md"), none⟩ :=
  ⟨by decide, by decide, by decide⟩

/-- C7: whenever the parser extracts no tasks from the plan text,
validation returns the pass result carrying the distinct no-tasks
message — `result` is `"continue"`, no reason is set, and the message
differs from the ordinary pass message for every task count. -/
theorem claim_C7_empty_registry_passes (file content : String)
    (h : parseTaskMetadata content = []) :
    validateContent file content = ⟨true, "continue", some (noTasksMsg file), none⟩ ∧
      ∀ n : Nat, noTasksMsg file ≠ passMsg file n := by
  constructor
  · simp [validateContent, h]
  · intro n heq
    have hN : ((noTasksMsg file).data).head? = some 'N' := by
      unfold noTasksMsg
      rw [String.data_append, String.data_append]
      rfl
    have hF : ((passMsg file n).data).head? = some 'F' := by
      unfold passMsg
      rw [String.data_append, String.data_append, String.data_append,
        String.data_append]
      rfl
    rw [heq, hF] at hN
    simp at hN

theorem claim_C7_witness :
    parseTaskMetadata "no sections here" = [] ∧
      (validateContent "plan.md" "no sections here" =
          ⟨true, "continue", some (noTasksMsg "plan.md"), none⟩ ∧
        ∀ n : Nat, noTasksMsg "plan.md" ≠ passMsg "plan.md" n) :=
  ⟨by decide, claim_C7_empty_registry_passes "plan.md" "no sections here" (by decide)⟩

/-- C9: the pipeline from plan text to result is a pure function — two
runs on the same text produce the same task registry, the same conflict
list and the same validation result. -/
theorem claim_C9_deterministic (file content : String)
    (t1 t2 : List (String × TaskData)) (r1 r2 : HookResult)
    (h1 : t1 = parseTaskMetadata content) (h2 : t2 = parseTaskMetadata content)
    (h3 : r1 = validateContent file content) (h4 : r2 = validateContent file content) :
    t1 = t2 ∧ (validateOwnershipRules t1).2 = (validateOwnershipRules t2).2 ∧ r1 = r2 := by
  subst h1
  subst h2
  subst h3
  subst h4
  exact ⟨rfl, rfl, rfl⟩

theorem claim_C9_witness :
    parseTaskMetadata planTwoTasks = parseTaskMetadata planTwoTasks ∧
      (validateOwnershipRules (parseTaskMetadata planTwoTasks)).2 =
        (validateOwnershipRules (parseTaskMetadata planTwoTasks)).2 ∧
      validateContent "plan.md" planTwoTasks = validateContent "plan.md" planTwoTasks :=
  claim_C9_deterministic "plan.md" planTwoTasks _ _ _ _ rfl rfl rfl rfl

/-- C10: every result `FileOwnershipValidator.validate` can return has
`ok = true` — on the pass path, the conflict-block path, the
missing-plan-file path and the unreadable-file path alike — so failure is
signalled only through `result = "block"`. -/
theorem claim_C10_ok_always_true (pattern directory : String) (findResult : Option String)
    (readResult : Except String String) :
    (validate pattern directory findResult readResult).ok = true ∧
      ((validate pattern directory findResult readResult).result = "continue" ∨
        (validate pattern directory findResult readResult).result = "block") := by
  cases findResult with
  | none => exact ⟨rfl, Or.inr rfl⟩
  | some newestFile =>
    cases readResult with
    | error e => exact ⟨rfl, Or.inr rfl⟩
    | ok content =>
      show (validateContent newestFile content).ok = true ∧
        ((validateContent newestFile content).result = "continue" ∨
          (validateContent newestFile content).result = "block")
      unfold validateContent
      dsimp only
      split_ifs with h1 h2
      · exact ⟨rfl, Or.inl rfl⟩
      · exact ⟨rfl, Or.inl rfl⟩
      · exact ⟨rfl, Or.inr rfl⟩
